import Mathlib

/-!
# ConversationsDbusInterface (plugins/sms/conversationsdbusinterface.cpp)

A shallow embedding of the conversation store of the SMS plugin and of the
operations that read and change it.

Data members (declared in conversationsdbusinterface.h):

* m_conversations : a QHash from the thread key (qint64) to an ordered map
  from the message timestamp (qint64) to the message. The hash is kept as the
  list of its entries in iteration order; the ordered map as the list of its
  entries in ascending key order. Whether the ordered map keeps one entry per
  key (QMap: insert replaces the value of an equal key) or several
  (QMultiMap: insert puts the new entry in front of the entries with an equal
  key) is fixed by the declaration in the header; the embedding takes it as
  the parameter multi, false for QMap, and the general results hold for both.
* m_known_messages : a QHash from the thread key (qint64) to the QSet of the
  known uIDs. It is only ever read through operator[], which inserts an empty
  set for an absent key.
* conversationsWaitingForMessages : the QSet of thread ids (qint64) for which
  a request for more messages is under way.

A ConversationMessage gives its thread id as a qint64 (addMessages puts it
into a QSet of qint64 and getConversation takes a qint64), its timestamp as a
qint64 and its uID as a qint32. Machine integers are unbounded integers here;
the one narrowing conversion of the code, the qint64 thread id bound to a
const qint32 reference at the head of the loop of addMessages, is explicit.

Sets are lists without repetition, in the order of first insertion; nothing
below depends on the order in which a QSet is iterated.

A call of updateConversation is followed through its actions on the lock, the
remote interface and the wait condition, the stores it finds when woken being
given from outside. The static map liveConversationInterfaces and the
interfaces handed to deleteLater make up the state shared by the process; an
interface is named by a number.
-/

namespace ConversationsDbusInterface

/-- ConversationMessage, the fields read by the store: uID(), threadID(),
date(), addresses(), isMultitarget(), subID() and the body. -/
structure ConversationMessage where
  uID : Int
  threadID : Int
  date : Int
  addresses : List String
  isMultitarget : Bool
  subID : Int
  body : String
  deriving DecidableEq

/-- What a call does to the outside: the Qt signals of the interface, the
wakeAll on the wait condition, and the sendSms calls on the SMS interface,
with three arguments in replyToConversation and with two in
sendWithoutConversation. -/
inductive Effect where
  | conversationCreated (msg : ConversationMessage)
  | conversationUpdated (msg : ConversationMessage)
  | conversationLoaded (conversationID : Int) (messageCount : Nat)
  | wakeAll
  | sendSms (address : String) (body : String) (subID : Int)
  | sendSmsWithoutSub (address : String) (body : String)
  deriving DecidableEq

/-- Conversion of a qint64 to qint32: the value modulo 2^32, in the signed range. -/
def toInt32 (x : Int) : Int := (x + 2147483648) % 4294967296 - 2147483648

/-- The entries of an ordered map from timestamp to message, in ascending key order. -/
abbrev MessageMap := List (Int × ConversationMessage)

/-- Insertion into the ordered map (the call insert(key, value)): the walk
goes past the entries with a smaller key; with a QMap an entry with the same
key has its value replaced, otherwise the new entry is put in front of the
first entry whose key is not smaller. -/
def mapInsert (multi : Bool) (key : Int) (value : ConversationMessage) : MessageMap → MessageMap
  | [] => [(key, value)]
  | (k, v) :: rest =>
    if k < key then (k, v) :: mapInsert multi key value rest
    else if k = key ∧ multi = false then (key, value) :: rest
    else (key, value) :: (k, v) :: rest

/-- Index of the entry the iterator returned by insert(key, value) points to. -/
def mapInsertPos (key : Int) : MessageMap → Nat
  | [] => 0
  | (k, _) :: rest => if k < key then mapInsertPos key rest + 1 else 0

/-- The call values() of the ordered map: the messages in ascending key order. -/
def mapValues (m : MessageMap) : List ConversationMessage := m.map Prod.snd

/-- QSet insert: nothing changes when the element is already there. -/
def qsetInsert (x : Int) (s : List Int) : List Int := if x ∈ s then s else s ++ [x]

/-- QSet subtract: removes every element of the other set. -/
def qsetSubtract (s other : List Int) : List Int := s.filter (fun x => decide (x ∉ other))

/-- QHash value(key): the stored value, or a default-constructed (empty) one. -/
def hashValue {β : Type} : List (Int × List β) → Int → List β
  | [], _ => []
  | (k, v) :: rest, key => if k = key then v else hashValue rest key

/-- QHash contains(key). -/
def hashContains {β : Type} : List (Int × List β) → Int → Bool
  | [], _ => false
  | (k, _) :: rest, key => if k = key then true else hashContains rest key

/-- QHash operator[] on a non-const hash: an absent key is inserted with a
default-constructed (empty) value. Where the new entry lands in the iteration
order is up to the hash function; the embedding puts it last. -/
def hashIndex {β : Type} (h : List (Int × List β)) (key : Int) : List (Int × List β) :=
  if hashContains h key then h else h ++ [(key, [])]

/-- A change made through the reference that operator[] returns. -/
def hashUpdate {β : Type} (h : List (Int × List β)) (key : Int) (f : List β → List β) :
    List (Int × List β) :=
  (hashIndex h key).map (fun p => if p.1 = key then (p.1, f p.2) else p)

/-- The data members of one ConversationsDbusInterface. -/
structure Store where
  m_conversations : List (Int × MessageMap)
  m_known_messages : List (Int × List Int)
  conversationsWaitingForMessages : List Int
  deriving DecidableEq

/-- The members right after construction. -/
def Store.empty : Store := ⟨[], [], []⟩

/-- The set of uIDs recorded for a thread key. -/
def knownIds (s : Store) (key : Int) : List Int := hashValue s.m_known_messages key

/-- ConversationsDbusInterface::getConversation. -/
def getConversation (s : Store) (conversationID : Int) : List ConversationMessage :=
  mapValues (hashValue s.m_conversations conversationID)

/-- The variables of the first loop of addMessages. -/
structure LoopState where
  store : Store
  updatedConversationIDs : List Int
  emitted : List Effect
  deriving DecidableEq

/-- One pass of the first loop of addMessages (lines 115 to 144). -/
def addMessagesStep (multi : Bool) (st : LoopState) (message : ConversationMessage) : LoopState :=
  let threadId := toInt32 message.threadID
  let ids := qsetInsert message.threadID st.updatedConversationIDs
  let known := hashIndex st.store.m_known_messages threadId
  if message.uID ∈ hashValue known threadId then
    { store := { st.store with m_known_messages := known },
      updatedConversationIDs := ids,
      emitted := st.emitted }
  else
    let newConversation := !hashContains st.store.m_conversations threadId
    let threadPosition := mapInsertPos message.date (hashValue st.store.m_conversations threadId)
    let conversations :=
      hashUpdate st.store.m_conversations threadId (mapInsert multi message.date message)
    let known2 := hashUpdate known threadId (qsetInsert message.uID)
    let latestMessage := threadPosition == (hashValue conversations threadId).length - 1
    let signals :=
      if newConversation then [Effect.conversationCreated message]
      else if latestMessage then [Effect.conversationUpdated message]
      else []
    { store := { st.store with m_conversations := conversations, m_known_messages := known2 },
      updatedConversationIDs := ids,
      emitted := st.emitted ++ signals }

/-- One pass of the second loop of addMessages (lines 148 to 151). -/
def loadedStep (acc : List (Int × List Int) × List Effect) (conversationID : Int) :
    List (Int × List Int) × List Effect :=
  let known := hashIndex acc.1 conversationID
  let numMessages := (hashValue known conversationID).length
  (known, acc.2 ++ [Effect.conversationLoaded conversationID numMessages])

/-- ConversationsDbusInterface::addMessages: the store afterwards and the
effects in the order they happen. -/
def addMessages (multi : Bool) (s : Store) (messages : List ConversationMessage) :
    Store × List Effect :=
  let st := messages.foldl (addMessagesStep multi) ⟨s, [], []⟩
  let loaded := st.updatedConversationIDs.foldl loadedStep (st.store.m_known_messages, st.emitted)
  ({ m_conversations := st.store.m_conversations,
     m_known_messages := loaded.1,
     conversationsWaitingForMessages :=
       qsetSubtract st.store.conversationsWaitingForMessages st.updatedConversationIDs },
   loaded.2 ++ [Effect.wakeAll])

/-- The loop of ConversationsDbusInterface::activeConversations over the
entries of m_conversations, in iteration order. -/
def activeConversationsLoop :
    List (Int × MessageMap) → List ConversationMessage → List ConversationMessage
  | [], toReturn => toReturn
  | (_, conversation) :: rest, toReturn =>
    match (mapValues conversation).getLast? with
    | none => toReturn
    | some message => activeConversationsLoop rest (toReturn ++ [message])

/-- ConversationsDbusInterface::activeConversations. -/
def activeConversations (s : Store) : List ConversationMessage :=
  activeConversationsLoop s.m_conversations []

/-- ConversationsDbusInterface::replyToConversation: the store afterwards and
the effects; none stands for the indexing of an empty address list. -/
def replyToConversation (s : Store) (conversationID : Int) (message : String) :
    Store × Option (List Effect) :=
  let s1 : Store := { s with m_conversations := hashIndex s.m_conversations conversationID }
  let messagesList := hashValue s1.m_conversations conversationID
  match messagesList.head? with
  | none => (s1, some [])
  | some (_, first) =>
    if first.isMultitarget then (s1, some [])
    else if first.addresses.length > 1 then (s1, some [])
    else
      match first.addresses.head? with
      | none => (s1, none)
      | some address => (s1, some [Effect.sendSms address message first.subID])

/-- A call of one of the public operations that read or change the store. -/
inductive Call where
  | addMessages (messages : List ConversationMessage)
  | getConversation (conversationID : Int)
  | activeConversations
  | replyToConversation (conversationID : Int) (message : String)

/-- The store after one call. -/
def runCall (multi : Bool) (s : Store) : Call → Store
  | Call.addMessages messages => (addMessages multi s messages).1
  | Call.getConversation _ => s
  | Call.activeConversations => s
  | Call.replyToConversation conversationID message =>
    (replyToConversation s conversationID message).1

/-- The store after a sequence of calls, the first of the list first. -/
def runCalls (multi : Bool) (s : Store) (calls : List Call) : Store :=
  calls.foldl (runCall multi) s

/-- The store after a sequence of addMessages calls, the first batch first. -/
def addMessagesSeq (multi : Bool) (s : Store) (batches : List (List ConversationMessage)) : Store :=
  batches.foldl (fun st batch => (addMessages multi st batch).1) s

/-- A message with the given uID, thread id and timestamp, one address. -/
def mkMessage (uID threadID date : Int) : ConversationMessage :=
  ⟨uID, threadID, date, ["+100"], false, 1, "text"⟩

/-- The key order of the entries of an ordered map: strictly ascending keys,
equal neighbours only where the map keeps several entries per key. -/
def MapSorted (multi : Bool) (c : MessageMap) : Prop :=
  c.Pairwise (fun a b => a.1 < b.1 ∨ (multi = true ∧ a.1 = b.1))

/-- The entries after the inserted one: those with a greater key, and with a
QMultiMap those with an equal key too. -/
def keptAfter (multi : Bool) (t : Int) (c : MessageMap) : MessageMap :=
  c.filter (fun e => if multi then decide (t ≤ e.1) else decide (t < e.1))

/-- What every store the calls produce keeps true of one thread key: the
entries of its ordered map and its set of known uIDs. -/
structure ThreadOK (multi : Bool) (k : Int) (c : MessageMap) (kn : List Int) : Prop where
  sorted : MapSorted multi c
  date_eq : ∀ e ∈ c, e.2.date = e.1
  thread_eq : ∀ e ∈ c, toInt32 e.2.threadID = k
  uid_known : ∀ e ∈ c, e.2.uID ∈ kn
  uid_nodup : (c.map (fun e => e.2.uID)).Nodup
  known_nodup : kn.Nodup
  known_range : kn ≠ [] → toInt32 k = k
  known_stored : multi = true → ∀ u ∈ kn, u ∈ c.map (fun e => e.2.uID)

/-- The same for every thread key of a store. -/
def StoreOK (multi : Bool) (s : Store) : Prop :=
  ∀ k, ThreadOK multi k (hashValue s.m_conversations k) (knownIds s k)

/-- Whether an effect is the signal conversationLoaded for the given id. -/
def isLoadedFor (conversationID : Int) : Effect → Bool
  | Effect.conversationLoaded i _ => i == conversationID
  | _ => false

/-- Whether an effect is one of the signals for a single message,
conversationCreated or conversationUpdated. -/
def isPerMessage : Effect → Bool
  | Effect.conversationCreated _ => true
  | Effect.conversationUpdated _ => true
  | _ => false

/-- Whether an effect is a signal conversationLoaded. -/
def isLoaded : Effect → Bool
  | Effect.conversationLoaded _ _ => true
  | _ => false

/-- The variables of the first loop of addMessages at the start of a pass:
the store the calls have produced from the empty store, then the passes for
the messages that come earlier in the batch. -/
def loopAt (multi : Bool) (calls : List Call) (earlier : List ConversationMessage) : LoopState :=
  earlier.foldl (addMessagesStep multi) ⟨runCalls multi Store.empty calls, [], []⟩

/-- ConversationsDbusInterface::sendWithoutConversation on the list of
addresses read from the D-Bus argument: the effects, none standing for the
indexing of an empty address list. -/
def sendWithoutConversation (addressList : List String) (message : String) :
    Option (List Effect) :=
  match addressList.head? with
  | none => none
  | some address => some [Effect.sendSmsWithoutSub address message]

/-- ConversationsDbusInterface::requestConversation with int start and end:
none when the request is turned away, otherwise the arguments with which the
RequestConversationWorker is created and set to work. The difference is the
machine one, of 32 bits. -/
def requestConversation (conversationID start end_ : Int) : Option (Int × Int × Int) :=
  if start < 0 ∨ end_ < 0 then none
  else if toInt32 (end_ - start) < 0 then none
  else some (conversationID, start, end_)

/-- What one call of updateConversation does with the lock, the remote
interface and the wait condition, in the order of the code. -/
inductive UpdateAction where
  | lock
  | unlock
  | requestConversation (conversationID : Int)
  | wait
  deriving DecidableEq

/-- ConversationsDbusInterface::updateConversation from its start (line 173)
to the first test of the wait loop (line 183): the store, the actions, and
whether the caller enters the wait. -/
def updateConversationEntry (s : Store) (conversationID : Int) :
    Store × List UpdateAction × Bool :=
  if conversationID ∈ s.conversationsWaitingForMessages then
    (s, [UpdateAction.lock, UpdateAction.unlock], false)
  else
    let s1 : Store :=
      { s with conversationsWaitingForMessages :=
          qsetInsert conversationID s.conversationsWaitingForMessages }
    (s1, [UpdateAction.lock, UpdateAction.requestConversation conversationID],
      decide (conversationID ∈ s1.conversationsWaitingForMessages))

/-- The condition of the wait loop of updateConversation (line 183). -/
def waitCondition (s : Store) (conversationID : Int) : Bool :=
  decide (conversationID ∈ s.conversationsWaitingForMessages)

/-- The wait loop of updateConversation (lines 183 to 186) over the stores
the caller finds at the successive tests of the condition: it waits while the
id is in-flight and unlocks when it is not. An exhausted list stands for a
caller that is still blocked. -/
def updateConversationLoop (conversationID : Int) : List Store → List UpdateAction
  | [] => []
  | s :: rest =>
    if waitCondition s conversationID then
      UpdateAction.wait :: updateConversationLoop conversationID rest
    else [UpdateAction.unlock]

/-- ConversationsDbusInterface::updateConversation: the actions of one call,
given the stores found at the tests of the wait condition after the first. -/
def updateConversation (s : Store) (conversationID : Int) (found : List Store) :
    List UpdateAction :=
  let entry := updateConversationEntry s conversationID
  if entry.2.2 then
    entry.2.1 ++ UpdateAction.wait :: updateConversationLoop conversationID found
  else entry.2.1

/-- Whether the caller holds waitingForMessagesLock after the given actions,
starting without it. The call wait gives the lock up while it blocks and
returns with the lock held again. -/
def lockHeld (actions : List UpdateAction) : Bool :=
  actions.foldl
    (fun held a =>
      match a with
      | UpdateAction.lock => true
      | UpdateAction.unlock => false
      | UpdateAction.requestConversation _ => held
      | UpdateAction.wait => held)
    false

/-- The first part of the destructor (lines 59 to 64): the in-flight set is
cleared and every waiter is woken. -/
def destructWake (s : Store) : Store × List Effect :=
  ({ s with conversationsWaitingForMessages := [] }, [Effect.wakeAll])

/-- The static map liveConversationInterfaces from device id to interface; an
interface is named by a number. -/
abbrev LiveInterfaces := List (String × Nat)

/-- The call find(device) on liveConversationInterfaces. -/
def liveFind : LiveInterfaces → String → Option Nat
  | [], _ => none
  | (d, i) :: rest, device => if d = device then some i else liveFind rest device

/-- The call erase(find(device)): the entry of the device is removed; with no
such entry the iterator is end() and nothing is removed. -/
def liveErase : LiveInterfaces → String → LiveInterfaces
  | [], _ => []
  | (d, i) :: rest, device => if d = device then rest else (d, i) :: liveErase rest device

/-- The assignment liveConversationInterfaces[device] = interface. -/
def liveAssign : LiveInterfaces → String → Nat → LiveInterfaces
  | [], device, this => [(device, this)]
  | (d, i) :: rest, device, this =>
    if d = device then (d, this) :: rest else (d, i) :: liveAssign rest device this

/-- The state shared by all interfaces of the process: the static map and
the interfaces handed to deleteLater, whose destructors run later. -/
structure Process where
  liveConversationInterfaces : LiveInterfaces
  deleteLater : List Nat
  deriving DecidableEq

/-- The body of the constructor (lines 45 to 54) for the interface this of
the device m_device; the new interface starts with empty members. -/
def construct (p : Process) (m_device : String) (this : Nat) : Process × Store :=
  match liveFind p.liveConversationInterfaces m_device with
  | some oldInterface =>
    ({ liveConversationInterfaces :=
         liveAssign (liveErase p.liveConversationInterfaces m_device) m_device this,
       deleteLater := p.deleteLater ++ [oldInterface] },
     Store.empty)
  | none =>
    ({ p with liveConversationInterfaces :=
         liveAssign p.liveConversationInterfaces m_device this },
     Store.empty)

/-- The destructor (lines 57 to 69) of an interface of the device m_device
with the members s. -/
def destruct (p : Process) (m_device : String) (s : Store) : Process × Store × List Effect :=
  let woken := destructWake s
  ({ p with liveConversationInterfaces := liveErase p.liveConversationInterfaces m_device },
   woken.1, woken.2)

/-- A step on the in-flight set: the entry of updateConversation, a delivery
by addMessages, or the destructor. -/
inductive FetchStep where
  | updateConversation (conversationID : Int)
  | addMessages (messages : List ConversationMessage)
  | destructor

/-- What is recorded of a step: a remote request sent for a thread id, or a
thread id leaving the in-flight set. -/
inductive FetchEvent where
  | dispatched (conversationID : Int)
  | left (conversationID : Int)
  deriving DecidableEq

/-- The remote requests among the actions of updateConversation. -/
def dispatchedBy : List UpdateAction → List FetchEvent
  | [] => []
  | UpdateAction.requestConversation i :: rest => FetchEvent.dispatched i :: dispatchedBy rest
  | _ :: rest => dispatchedBy rest

/-- The thread ids that are in-flight before a step and no longer after it. -/
def leftBetween (before after : Store) : List FetchEvent :=
  (before.conversationsWaitingForMessages.filter
    (fun t => decide (t ∉ after.conversationsWaitingForMessages))).map FetchEvent.left

/-- One step on the in-flight set: the store afterwards and the events. -/
def fetchStep (multi : Bool) (s : Store) : FetchStep → Store × List FetchEvent
  | FetchStep.updateConversation conversationID =>
    let r := updateConversationEntry s conversationID
    (r.1, dispatchedBy r.2.1 ++ leftBetween s r.1)
  | FetchStep.addMessages messages =>
    let s1 := (addMessages multi s messages).1
    (s1, leftBetween s s1)
  | FetchStep.destructor =>
    let s1 := (destructWake s).1
    (s1, leftBetween s s1)

/-- A sequence of steps on the in-flight set: the store afterwards and all
events in order. -/
def runFetch (multi : Bool) (s : Store) (steps : List FetchStep) : Store × List FetchEvent :=
  steps.foldl
    (fun acc step => ((fetchStep multi acc.1 step).1, acc.2 ++ (fetchStep multi acc.1 step).2))
    (s, [])

/-- The number of remote requests recorded for a thread id since the id last
left the in-flight set. -/
def pendingDispatches (conversationID : Int) (events : List FetchEvent) : Nat :=
  events.foldl
    (fun n e =>
      if e = FetchEvent.left conversationID then 0
      else if e = FetchEvent.dispatched conversationID then n + 1
      else n)
    0

/-- A message with the given uID, thread id, timestamp and addresses. -/
def mkMessageTo (uID threadID date : Int) (addresses : List String) : ConversationMessage :=
  ⟨uID, threadID, date, addresses, false, 1, "text"⟩

/-- A multitarget message with the given uID, thread id, timestamp and
addresses. -/
def mkGroupMessage (uID threadID date : Int) (addresses : List String) : ConversationMessage :=
  ⟨uID, threadID, date, addresses, true, 1, "text"⟩

/-- The count kept by pendingDispatches, after one more event. -/
def pendingNext (conversationID : Int) (n : Nat) (e : FetchEvent) : Nat :=
  if e = FetchEvent.left conversationID then 0
  else if e = FetchEvent.dispatched conversationID then n + 1
  else n

/-! ## The hash and the ordered map -/

theorem toInt32_of_range (x : Int) (h1 : -2147483648 ≤ x) (h2 : x < 2147483648) : toInt32 x = x := by
  unfold toInt32; omega

theorem toInt32_range (x : Int) : -2147483648 ≤ toInt32 x ∧ toInt32 x < 2147483648 := by
  unfold toInt32; omega

theorem toInt32_idem (x : Int) : toInt32 (toInt32 x) = toInt32 x :=
  toInt32_of_range _ (toInt32_range x).1 (toInt32_range x).2

section hash
variable {β : Type}

theorem hashValue_nil (key : Int) : hashValue ([] : List (Int × List β)) key = [] := rfl

theorem hashValue_cons (k key : Int) (v : List β) (rest : List (Int × List β)) :
    hashValue ((k, v) :: rest) key = if k = key then v else hashValue rest key := rfl

theorem hashContains_nil (key : Int) : hashContains ([] : List (Int × List β)) key = false := rfl

theorem hashContains_cons (k key : Int) (v : List β) (rest : List (Int × List β)) :
    hashContains ((k, v) :: rest) key = if k = key then true else hashContains rest key := rfl

theorem hashValue_append_empty (h : List (Int × List β)) (k key : Int) :
    hashValue (h ++ [(k, [])]) key = hashValue h key := by
  induction h with
  | nil => simp [hashValue_cons, hashValue_nil]
  | cons p rest ih =>
    obtain ⟨k1, v1⟩ := p
    rw [List.cons_append, hashValue_cons, hashValue_cons, ih]

theorem hashValue_hashIndex (h : List (Int × List β)) (k key : Int) :
    hashValue (hashIndex h k) key = hashValue h key := by
  unfold hashIndex
  split
  · rfl
  · exact hashValue_append_empty h k key

theorem hashContains_append (h : List (Int × List β)) (k key : Int) (v : List β) :
    hashContains (h ++ [(k, v)]) key = (hashContains h key || decide (k = key)) := by
  induction h with
  | nil => simp [hashContains_cons, hashContains_nil]
  | cons p rest ih =>
    obtain ⟨k1, v1⟩ := p
    rw [List.cons_append, hashContains_cons, hashContains_cons, ih]
    split <;> simp

theorem hashContains_hashIndex (h : List (Int × List β)) (k key : Int) :
    hashContains (hashIndex h k) key = (hashContains h key || decide (k = key)) := by
  unfold hashIndex
  split
  · rename_i hc
    by_cases hk : k = key
    · subst hk; simp [hc]
    · simp [hk]
  · exact hashContains_append h k key []

theorem hashValue_of_not_contains (h : List (Int × List β)) (key : Int)
    (hc : hashContains h key = false) : hashValue h key = [] := by
  induction h with
  | nil => rfl
  | cons p rest ih =>
    obtain ⟨k1, v1⟩ := p
    rw [hashContains_cons] at hc
    rw [hashValue_cons]
    by_cases hk : k1 = key
    · simp [hk] at hc
    · rw [if_neg hk] at hc ⊢; exact ih hc

theorem hashContains_of_value_ne_nil (h : List (Int × List β)) (key : Int)
    (hv : hashValue h key ≠ []) : hashContains h key = true := by
  by_contra hc
  exact hv (hashValue_of_not_contains h key (by simpa using hc))

theorem hashValue_map_update (h : List (Int × List β)) (k key : Int) (f : List β → List β) :
    hashValue (h.map (fun p => if p.1 = k then (p.1, f p.2) else p)) key =
      if key = k then (if hashContains h k then f (hashValue h k) else []) else hashValue h key := by
  induction h with
  | nil => simp [hashValue_nil, hashContains_nil]
  | cons p rest ih =>
    obtain ⟨k1, v1⟩ := p
    by_cases h1 : k1 = k
    · by_cases h2 : k1 = key
      · have h3 : key = k := h2.symm.trans h1
        simp [hashValue_cons, hashContains_cons, h1, h3]
      · have h3 : ¬ key = k := fun e => h2 (h1.trans e.symm)
        have h4 : ¬ k = key := fun e => h3 e.symm
        simp [hashValue_cons, h1, h3, h4, ih]
    · by_cases h2 : k1 = key
      · have h3 : ¬ key = k := fun e => h1 (h2.trans e)
        simp [hashValue_cons, h1, h2, h3]
      · simp [hashValue_cons, hashContains_cons, h1, h2, ih]

theorem hashContains_map_update (h : List (Int × List β)) (k key : Int) (f : List β → List β) :
    hashContains (h.map (fun p => if p.1 = k then (p.1, f p.2) else p)) key = hashContains h key := by
  induction h with
  | nil => rfl
  | cons p rest ih =>
    obtain ⟨k1, v1⟩ := p
    rw [List.map_cons, hashContains_cons]
    by_cases h1 : k1 = k
    · rw [if_pos h1, hashContains_cons, ih]
    · rw [if_neg h1, hashContains_cons, ih]

theorem hashValue_hashUpdate (h : List (Int × List β)) (k key : Int) (f : List β → List β) :
    hashValue (hashUpdate h k f) key = if key = k then f (hashValue h k) else hashValue h key := by
  unfold hashUpdate
  rw [hashValue_map_update, hashContains_hashIndex, hashValue_hashIndex, hashValue_hashIndex]
  simp

theorem hashContains_hashUpdate (h : List (Int × List β)) (k key : Int) (f : List β → List β) :
    hashContains (hashUpdate h k f) key = (hashContains h key || decide (k = key)) := by
  unfold hashUpdate
  rw [hashContains_map_update, hashContains_hashIndex]

end hash

theorem mapInsert_nil (multi : Bool) (t : Int) (m : ConversationMessage) :
    mapInsert multi t m [] = [(t, m)] := rfl

theorem mapInsert_cons (multi : Bool) (t : Int) (m : ConversationMessage) (k : Int)
    (v : ConversationMessage) (rest : MessageMap) :
    mapInsert multi t m ((k, v) :: rest) =
      if k < t then (k, v) :: mapInsert multi t m rest
      else if k = t ∧ multi = false then (t, m) :: rest
      else (t, m) :: (k, v) :: rest := rfl

theorem mapInsertPos_nil (t : Int) : mapInsertPos t [] = 0 := rfl

theorem mapInsertPos_cons (t k : Int) (v : ConversationMessage) (rest : MessageMap) :
    mapInsertPos t ((k, v) :: rest) = if k < t then mapInsertPos t rest + 1 else 0 := rfl

theorem mapInsert_eq (multi : Bool) (t : Int) (m : ConversationMessage) (c : MessageMap)
    (hs : MapSorted multi c) :
    mapInsert multi t m c =
      c.filter (fun e => decide (e.1 < t)) ++ (t, m) :: keptAfter multi t c := by
  induction c with
  | nil => rfl
  | cons p rest ih =>
    obtain ⟨k, v⟩ := p
    have hs2 := List.pairwise_cons.mp hs
    rw [mapInsert_cons]
    by_cases h1 : k < t
    · rw [if_pos h1, ih hs2.2]
      have h2 : ¬ t ≤ k := by omega
      have h3 : ¬ t < k := by omega
      cases multi <;> simp [keptAfter, List.filter_cons, h1, h2, h3]
    · rw [if_neg h1]
      have hfront : rest.filter (fun e => decide (e.1 < t)) = [] := by
        rw [List.filter_eq_nil_iff]
        intro e he
        have := hs2.1 e he
        simp only [decide_eq_true_eq]
        rcases this with h | ⟨_, h⟩ <;> simp only at h <;> omega
      by_cases h4 : k = t ∧ multi = false
      · rw [if_pos h4]
        obtain ⟨hk, hm⟩ := h4
        subst hm
        have hback : rest.filter (fun e => decide (t < e.1)) = rest := by
          rw [List.filter_eq_self]
          intro e he
          have := hs2.1 e he
          simp only [decide_eq_true_eq]
          rcases this with h | ⟨h0, _⟩
          · simp only at h; omega
          · simp at h0
        simp [keptAfter, List.filter_cons, h1, hfront, hback, hk]
      · rw [if_neg h4]
        have hback : keptAfter multi t ((k, v) :: rest) = (k, v) :: rest := by
          unfold keptAfter
          rw [List.filter_eq_self]
          intro e he
          have hke : k ≤ e.1 := by
            rcases List.mem_cons.mp he with h | h
            · rw [h]
            · rcases hs2.1 e h with h | ⟨_, h⟩ <;> simp only at h <;> omega
          cases multi
          · have : k ≠ t := fun e => h4 ⟨e, rfl⟩
            simp only [Bool.false_eq_true, if_false, decide_eq_true_eq]; omega
          · simp only [if_true, decide_eq_true_eq]; omega
        rw [hback]
        simp [List.filter_cons, h1, hfront]

theorem mapInsertPos_eq (multi : Bool) (t : Int) (c : MessageMap) (hs : MapSorted multi c) :
    mapInsertPos t c = (c.filter (fun e => decide (e.1 < t))).length := by
  induction c with
  | nil => rfl
  | cons p rest ih =>
    obtain ⟨k, v⟩ := p
    have hs2 := List.pairwise_cons.mp hs
    rw [mapInsertPos_cons]
    by_cases h1 : k < t
    · rw [if_pos h1, ih hs2.2]
      simp [List.filter_cons, h1]
    · rw [if_neg h1]
      have hfront : rest.filter (fun e => decide (e.1 < t)) = [] := by
        rw [List.filter_eq_nil_iff]
        intro e he
        have := hs2.1 e he
        simp only [decide_eq_true_eq]
        rcases this with h | ⟨_, h⟩ <;> simp only at h <;> omega
      simp [List.filter_cons, h1, hfront]

theorem mapInsert_perm (multi : Bool) (t : Int) (m : ConversationMessage) (c : MessageMap) :
    ∃ l, l.Sublist c ∧ (multi = true → l = c) ∧ (mapInsert multi t m c).Perm ((t, m) :: l) := by
  induction c with
  | nil => exact ⟨[], List.Sublist.refl _, fun _ => rfl, List.Perm.refl _⟩
  | cons p rest ih =>
    obtain ⟨k, v⟩ := p
    rw [mapInsert_cons]
    by_cases h1 : k < t
    · rw [if_pos h1]
      obtain ⟨l, hl, hm, hp⟩ := ih
      refine ⟨(k, v) :: l, hl.cons₂ _, fun h => by rw [hm h], ?_⟩
      exact (List.Perm.cons _ hp).trans (List.Perm.swap _ _ _)
    · rw [if_neg h1]
      by_cases h4 : k = t ∧ multi = false
      · rw [if_pos h4]
        exact ⟨rest, List.sublist_cons_self _ _, fun h => by simp [h] at h4, List.Perm.refl _⟩
      · rw [if_neg h4]
        exact ⟨(k, v) :: rest, List.Sublist.refl _, fun _ => rfl, List.Perm.refl _⟩

theorem mem_mapInsert_self (multi : Bool) (t : Int) (m : ConversationMessage) (c : MessageMap) :
    (t, m) ∈ mapInsert multi t m c := by
  obtain ⟨l, _, _, hp⟩ := mapInsert_perm multi t m c
  exact hp.symm.subset (List.mem_cons_self _ _)

theorem mem_mapInsert (multi : Bool) (t : Int) (m : ConversationMessage) (c : MessageMap)
    (e : Int × ConversationMessage) (he : e ∈ mapInsert multi t m c) : e = (t, m) ∨ e ∈ c := by
  obtain ⟨l, hl, _, hp⟩ := mapInsert_perm multi t m c
  rcases List.mem_cons.mp (hp.subset he) with h | h
  · exact Or.inl h
  · exact Or.inr (hl.subset h)

theorem mapInsert_sorted (multi : Bool) (t : Int) (m : ConversationMessage) (c : MessageMap)
    (hs : MapSorted multi c) : MapSorted multi (mapInsert multi t m c) := by
  rw [mapInsert_eq multi t m c hs]
  unfold MapSorted
  rw [List.pairwise_append]
  refine ⟨hs.sublist (List.filter_sublist _), ?_, ?_⟩
  · rw [List.pairwise_cons]
    refine ⟨?_, hs.sublist (List.filter_sublist _)⟩
    intro b hb
    have hb2 := (List.mem_filter.mp hb).2
    cases multi
    · simp only [Bool.false_eq_true, if_false, decide_eq_true_eq] at hb2
      exact Or.inl hb2
    · simp only [if_true, decide_eq_true_eq] at hb2
      by_cases h : t = b.1
      · exact Or.inr ⟨rfl, h⟩
      · exact Or.inl (by simp only; omega)
  · intro a ha b hb
    have ha2 : a.1 < t := by simpa using (List.mem_filter.mp ha).2
    left
    rcases List.mem_cons.mp hb with h | h
    · rw [h]; exact ha2
    · have hb2 := (List.mem_filter.mp h).2
      cases multi
      · simp only [Bool.false_eq_true, if_false, decide_eq_true_eq] at hb2; omega
      · simp only [if_true, decide_eq_true_eq] at hb2; omega

theorem qsetInsert_of_not_mem (u : Int) (kn : List Int) (h : u ∉ kn) :
    qsetInsert u kn = kn ++ [u] := by
  unfold qsetInsert; rw [if_neg h]

theorem mem_qsetInsert (u x : Int) (kn : List Int) : x ∈ qsetInsert u kn ↔ x = u ∨ x ∈ kn := by
  unfold qsetInsert
  split
  · rename_i h
    constructor
    · exact Or.inr
    · rintro (h1 | h1)
      · rw [h1]; exact h
      · exact h1
  · simp [or_comm]

theorem qsetInsert_nodup (u : Int) (kn : List Int) (h : kn.Nodup) : (qsetInsert u kn).Nodup := by
  unfold qsetInsert
  split
  · exact h
  · rename_i hu
    rw [List.nodup_append]
    refine ⟨h, List.nodup_singleton _, ?_⟩
    intro a ha hb
    rw [List.mem_singleton] at hb
    exact hu (hb ▸ ha)

theorem ThreadOK.nil (multi : Bool) (k : Int) : ThreadOK multi k [] [] :=
  ⟨List.Pairwise.nil, by simp, by simp, by simp, by simp, List.nodup_nil, by simp, by simp⟩

theorem ThreadOK.insert {multi : Bool} {k : Int} {c : MessageMap} {kn : List Int}
    (h : ThreadOK multi k c kn) (m : ConversationMessage) (hk : toInt32 m.threadID = k)
    (hu : m.uID ∉ kn) :
    ThreadOK multi k (mapInsert multi m.date m c) (qsetInsert m.uID kn) := by
  obtain ⟨l, hl, hm, hp⟩ := mapInsert_perm multi m.date m c
  have hfresh : m.uID ∉ c.map (fun e => e.2.uID) := by
    intro hmem
    obtain ⟨e, he, hee⟩ := List.mem_map.mp hmem
    exact hu (hee ▸ h.uid_known e he)
  refine ⟨mapInsert_sorted multi _ m c h.sorted, ?_, ?_, ?_, ?_, qsetInsert_nodup _ _ h.known_nodup,
    fun _ => hk ▸ toInt32_idem _, ?_⟩
  · intro e he
    rcases mem_mapInsert multi _ m c e he with h1 | h1
    · rw [h1]
    · exact h.date_eq e h1
  · intro e he
    rcases mem_mapInsert multi _ m c e he with h1 | h1
    · rw [h1]; exact hk
    · exact h.thread_eq e h1
  · intro e he
    rw [mem_qsetInsert]
    rcases mem_mapInsert multi _ m c e he with h1 | h1
    · rw [h1]; exact Or.inl rfl
    · exact Or.inr (h.uid_known e h1)
  · have hp2 := hp.map (fun e => e.2.uID)
    rw [hp2.nodup_iff, List.map_cons, List.nodup_cons]
    refine ⟨?_, h.uid_nodup.sublist (hl.map _)⟩
    intro hmem
    exact hfresh ((hl.map _).subset hmem)
  · intro hmulti u hmem
    have hp2 := hp.map (fun e => e.2.uID)
    rw [hm hmulti] at hp2
    apply hp2.symm.subset
    rw [List.map_cons, List.mem_cons]
    rcases (mem_qsetInsert _ _ _).mp hmem with h1 | h1
    · exact Or.inl h1
    · exact Or.inr (h.known_stored hmulti u h1)

theorem step_known_iff (st : LoopState) (m : ConversationMessage) :
    m.uID ∈ hashValue (hashIndex st.store.m_known_messages (toInt32 m.threadID)) (toInt32 m.threadID)
      ↔ m.uID ∈ knownIds st.store (toInt32 m.threadID) := by
  rw [hashValue_hashIndex]; rfl

theorem step_waiting (multi : Bool) (st : LoopState) (m : ConversationMessage) :
    (addMessagesStep multi st m).store.conversationsWaitingForMessages =
      st.store.conversationsWaitingForMessages := by
  unfold addMessagesStep
  simp only
  split <;> rfl

theorem step_ids (multi : Bool) (st : LoopState) (m : ConversationMessage) :
    (addMessagesStep multi st m).updatedConversationIDs =
      qsetInsert m.threadID st.updatedConversationIDs := by
  unfold addMessagesStep
  simp only
  split <;> rfl

theorem step_conv_of_known (multi : Bool) (st : LoopState) (m : ConversationMessage)
    (h : m.uID ∈ knownIds st.store (toInt32 m.threadID)) :
    (addMessagesStep multi st m).store.m_conversations = st.store.m_conversations := by
  unfold addMessagesStep
  simp only
  rw [if_pos ((step_known_iff st m).mpr h)]

theorem step_knownIds_of_known (multi : Bool) (st : LoopState) (m : ConversationMessage)
    (h : m.uID ∈ knownIds st.store (toInt32 m.threadID)) (key : Int) :
    knownIds (addMessagesStep multi st m).store key = knownIds st.store key := by
  unfold addMessagesStep
  simp only
  rw [if_pos ((step_known_iff st m).mpr h)]
  exact hashValue_hashIndex _ _ _

theorem step_emitted_of_known (multi : Bool) (st : LoopState) (m : ConversationMessage)
    (h : m.uID ∈ knownIds st.store (toInt32 m.threadID)) :
    (addMessagesStep multi st m).emitted = st.emitted := by
  unfold addMessagesStep
  simp only
  rw [if_pos ((step_known_iff st m).mpr h)]

theorem step_conv_of_new (multi : Bool) (st : LoopState) (m : ConversationMessage)
    (h : m.uID ∉ knownIds st.store (toInt32 m.threadID)) (key : Int) :
    hashValue (addMessagesStep multi st m).store.m_conversations key =
      if key = toInt32 m.threadID then
        mapInsert multi m.date m (hashValue st.store.m_conversations (toInt32 m.threadID))
      else hashValue st.store.m_conversations key := by
  unfold addMessagesStep
  simp only
  rw [if_neg (fun hh => h ((step_known_iff st m).mp hh))]
  exact hashValue_hashUpdate _ _ _ _

theorem step_knownIds_of_new (multi : Bool) (st : LoopState) (m : ConversationMessage)
    (h : m.uID ∉ knownIds st.store (toInt32 m.threadID)) (key : Int) :
    knownIds (addMessagesStep multi st m).store key =
      if key = toInt32 m.threadID then qsetInsert m.uID (knownIds st.store (toInt32 m.threadID))
      else knownIds st.store key := by
  unfold addMessagesStep
  simp only
  rw [if_neg (fun hh => h ((step_known_iff st m).mp hh))]
  simp only [knownIds]
  rw [hashValue_hashUpdate, hashValue_hashIndex, hashValue_hashIndex]

theorem step_emitted_of_new (multi : Bool) (st : LoopState) (m : ConversationMessage)
    (h : m.uID ∉ knownIds st.store (toInt32 m.threadID)) :
    (addMessagesStep multi st m).emitted =
      st.emitted ++
        (if hashContains st.store.m_conversations (toInt32 m.threadID) = false then
          [Effect.conversationCreated m]
        else if mapInsertPos m.date (hashValue st.store.m_conversations (toInt32 m.threadID)) + 1 =
            (mapInsert multi m.date m
              (hashValue st.store.m_conversations (toInt32 m.threadID))).length then
          [Effect.conversationUpdated m]
        else []) := by
  unfold addMessagesStep
  simp only
  rw [if_neg (fun hh => h ((step_known_iff st m).mp hh))]
  simp only [hashValue_hashUpdate, if_true]
  have hlen : 0 < (mapInsert multi m.date m
      (hashValue st.store.m_conversations (toInt32 m.threadID))).length :=
    List.length_pos_of_mem (mem_mapInsert_self _ _ _ _)
  congr 1
  by_cases hc : hashContains st.store.m_conversations (toInt32 m.threadID) = false
  · simp [hc]
  · have hc2 : hashContains st.store.m_conversations (toInt32 m.threadID) = true := by simpa using hc
    rw [if_neg hc]
    simp only [hc2, Bool.not_true, Bool.false_eq_true, if_false, beq_iff_eq]
    by_cases hp : mapInsertPos m.date (hashValue st.store.m_conversations (toInt32 m.threadID)) + 1 =
        (mapInsert multi m.date m (hashValue st.store.m_conversations (toInt32 m.threadID))).length
    · rw [if_pos hp, if_pos (by omega)]
    · rw [if_neg hp, if_neg (by omega)]

theorem step_storeOK (multi : Bool) (st : LoopState) (m : ConversationMessage)
    (h : StoreOK multi st.store) : StoreOK multi (addMessagesStep multi st m).store := by
  intro k
  by_cases hk : m.uID ∈ knownIds st.store (toInt32 m.threadID)
  · rw [step_conv_of_known multi st m hk, step_knownIds_of_known multi st m hk]
    exact h k
  · rw [step_conv_of_new multi st m hk, step_knownIds_of_new multi st m hk]
    by_cases hkey : k = toInt32 m.threadID
    · rw [if_pos hkey, if_pos hkey]
      subst hkey
      exact (h _).insert m rfl hk
    · rw [if_neg hkey, if_neg hkey]
      exact h k

theorem foldl_step_storeOK (multi : Bool) (messages : List ConversationMessage) (st : LoopState)
    (h : StoreOK multi st.store) :
    StoreOK multi (messages.foldl (addMessagesStep multi) st).store := by
  induction messages generalizing st with
  | nil => exact h
  | cons m rest ih => exact ih _ (step_storeOK multi st m h)

theorem foldl_loadedStep_value (ids : List Int) (acc : List (Int × List Int) × List Effect)
    (key : Int) : hashValue (ids.foldl loadedStep acc).1 key = hashValue acc.1 key := by
  induction ids generalizing acc with
  | nil => rfl
  | cons i rest ih =>
    rw [List.foldl_cons, ih]
    exact hashValue_hashIndex _ _ _

theorem foldl_loadedStep_effects (ids : List Int) (acc : List (Int × List Int) × List Effect) :
    (ids.foldl loadedStep acc).2 =
      acc.2 ++ ids.map (fun i => Effect.conversationLoaded i (hashValue acc.1 i).length) := by
  induction ids generalizing acc with
  | nil => simp
  | cons i rest ih =>
    rw [List.foldl_cons, ih]
    simp only [loadedStep, hashValue_hashIndex, List.map_cons, List.append_assoc,
      List.singleton_append]

theorem addMessages_conv (multi : Bool) (s : Store) (messages : List ConversationMessage) :
    (addMessages multi s messages).1.m_conversations =
      (messages.foldl (addMessagesStep multi) ⟨s, [], []⟩).store.m_conversations := rfl

theorem addMessages_knownIds (multi : Bool) (s : Store) (messages : List ConversationMessage)
    (key : Int) :
    knownIds (addMessages multi s messages).1 key =
      knownIds (messages.foldl (addMessagesStep multi) ⟨s, [], []⟩).store key := by
  unfold addMessages knownIds
  exact foldl_loadedStep_value _ _ _

theorem addMessages_getConversation (multi : Bool) (s : Store)
    (messages : List ConversationMessage) (key : Int) :
    getConversation (addMessages multi s messages).1 key =
      getConversation (messages.foldl (addMessagesStep multi) ⟨s, [], []⟩).store key := rfl

theorem addMessages_storeOK (multi : Bool) (s : Store) (messages : List ConversationMessage)
    (h : StoreOK multi s) : StoreOK multi (addMessages multi s messages).1 := by
  intro k
  rw [addMessages_conv, addMessages_knownIds]
  exact foldl_step_storeOK multi messages ⟨s, [], []⟩ h k

theorem replyToConversation_store (s : Store) (conversationID : Int) (message : String) :
    (replyToConversation s conversationID message).1 =
      { s with m_conversations := hashIndex s.m_conversations conversationID } := by
  unfold replyToConversation
  simp only
  split
  · rfl
  · split
    · rfl
    · split
      · rfl
      · split <;> rfl

theorem replyToConversation_storeOK (multi : Bool) (s : Store) (conversationID : Int)
    (message : String) (h : StoreOK multi s) :
    StoreOK multi (replyToConversation s conversationID message).1 := by
  intro k
  rw [replyToConversation_store]
  simp only [knownIds, hashValue_hashIndex]
  exact h k

theorem empty_storeOK (multi : Bool) : StoreOK multi Store.empty :=
  fun k => ThreadOK.nil multi k

theorem runCall_storeOK (multi : Bool) (s : Store) (c : Call) (h : StoreOK multi s) :
    StoreOK multi (runCall multi s c) := by
  cases c with
  | addMessages messages => exact addMessages_storeOK multi s messages h
  | getConversation _ => exact h
  | activeConversations => exact h
  | replyToConversation conversationID message =>
    exact replyToConversation_storeOK multi s conversationID message h

theorem runCalls_storeOK (multi : Bool) (calls : List Call) (s : Store) (h : StoreOK multi s) :
    StoreOK multi (runCalls multi s calls) := by
  induction calls generalizing s with
  | nil => exact h
  | cons c rest ih => exact ih _ (runCall_storeOK multi s c h)

/-! ## The loops of addMessages -/

theorem getConversation_sorted_of_storeOK (multi : Bool) (s : Store) (h : StoreOK multi s)
    (key : Int) : (getConversation s key).Pairwise (fun a b => a.date ≤ b.date) := by
  unfold getConversation mapValues
  rw [List.pairwise_map]
  have hk := h key
  refine List.Pairwise.imp_of_mem ?_ hk.sorted
  intro a b ha hb hab
  rw [hk.date_eq a ha, hk.date_eq b hb]
  rcases hab with h1 | ⟨_, h1⟩
  · exact Int.le_of_lt h1
  · exact Int.le_of_eq h1

theorem addMessagesSeq_eq_runCalls (multi : Bool) (batches : List (List ConversationMessage))
    (s : Store) :
    addMessagesSeq multi s batches = runCalls multi s (batches.map Call.addMessages) := by
  induction batches generalizing s with
  | nil => rfl
  | cons b rest ih =>
    unfold addMessagesSeq runCalls at *
    rw [List.foldl_cons, List.map_cons, List.foldl_cons]
    exact ih _

theorem foldl_step_ids (multi : Bool) (messages : List ConversationMessage) (st : LoopState) :
    (messages.foldl (addMessagesStep multi) st).updatedConversationIDs =
      messages.foldl (fun ids m => qsetInsert m.threadID ids) st.updatedConversationIDs := by
  induction messages generalizing st with
  | nil => rfl
  | cons m rest ih => rw [List.foldl_cons, List.foldl_cons, ih, step_ids]

theorem mem_foldl_qsetInsert (messages : List ConversationMessage) (ids : List Int) (t : Int) :
    t ∈ messages.foldl (fun ids m => qsetInsert m.threadID ids) ids ↔
      t ∈ ids ∨ t ∈ messages.map (fun m => m.threadID) := by
  induction messages generalizing ids with
  | nil => simp
  | cons m rest ih =>
    rw [List.foldl_cons, ih, mem_qsetInsert, List.map_cons, List.mem_cons]
    constructor
    · rintro ((h | h) | h)
      · exact Or.inr (Or.inl h)
      · exact Or.inl h
      · exact Or.inr (Or.inr h)
    · rintro (h | h | h)
      · exact Or.inl (Or.inr h)
      · exact Or.inl (Or.inl h)
      · exact Or.inr h

theorem foldl_qsetInsert_nodup (messages : List ConversationMessage) (ids : List Int)
    (h : ids.Nodup) : (messages.foldl (fun ids m => qsetInsert m.threadID ids) ids).Nodup := by
  induction messages generalizing ids with
  | nil => exact h
  | cons m rest ih => exact ih _ (qsetInsert_nodup _ _ h)

theorem foldl_step_waiting (multi : Bool) (messages : List ConversationMessage) (st : LoopState) :
    (messages.foldl (addMessagesStep multi) st).store.conversationsWaitingForMessages =
      st.store.conversationsWaitingForMessages := by
  induction messages generalizing st with
  | nil => rfl
  | cons m rest ih => rw [List.foldl_cons, ih, step_waiting]

theorem step_emitted_perMessage (multi : Bool) (st : LoopState) (m : ConversationMessage)
    (h : ∀ e ∈ st.emitted, isPerMessage e = true) :
    ∀ e ∈ (addMessagesStep multi st m).emitted, isPerMessage e = true := by
  by_cases hk : m.uID ∈ knownIds st.store (toInt32 m.threadID)
  · rw [step_emitted_of_known multi st m hk]; exact h
  · rw [step_emitted_of_new multi st m hk]
    intro e he
    rcases List.mem_append.mp he with h1 | h1
    · exact h e h1
    · split at h1
      · rw [List.mem_singleton.mp h1]; rfl
      · split at h1
        · rw [List.mem_singleton.mp h1]; rfl
        · simp at h1

theorem foldl_step_emitted_perMessage (multi : Bool) (messages : List ConversationMessage)
    (st : LoopState) (h : ∀ e ∈ st.emitted, isPerMessage e = true) :
    ∀ e ∈ (messages.foldl (addMessagesStep multi) st).emitted, isPerMessage e = true := by
  induction messages generalizing st with
  | nil => exact h
  | cons m rest ih => exact ih _ (step_emitted_perMessage multi st m h)

theorem addMessages_effects (multi : Bool) (s : Store) (messages : List ConversationMessage) :
    (addMessages multi s messages).2 =
      (messages.foldl (addMessagesStep multi) ⟨s, [], []⟩).emitted ++
        ((messages.foldl (fun ids m => qsetInsert m.threadID ids) []).map
            (fun i => Effect.conversationLoaded i (knownIds (addMessages multi s messages).1 i).length)
          ++ [Effect.wakeAll]) := by
  have hk : ∀ i, knownIds (addMessages multi s messages).1 i =
      hashValue (messages.foldl (addMessagesStep multi) ⟨s, [], []⟩).store.m_known_messages i :=
    fun i => addMessages_knownIds multi s messages i
  simp only [hk]
  unfold addMessages
  simp only
  rw [foldl_loadedStep_effects, foldl_step_ids, List.append_assoc]

/-! ## Delivery of a message that is already known -/

theorem step_store_of_known (multi : Bool) (st : LoopState) (m : ConversationMessage)
    (h : m.uID ∈ knownIds st.store (toInt32 m.threadID)) :
    (addMessagesStep multi st m).store = st.store := by
  have hc : hashContains st.store.m_known_messages (toInt32 m.threadID) = true :=
    hashContains_of_value_ne_nil _ _ (List.ne_nil_of_mem h)
  unfold addMessagesStep
  simp only
  rw [if_pos ((step_known_iff st m).mpr h)]
  simp only [hashIndex, hc, if_true]

theorem step_store_congr (multi : Bool) (st1 st2 : LoopState) (m : ConversationMessage)
    (h : st1.store = st2.store) :
    (addMessagesStep multi st1 m).store = (addMessagesStep multi st2 m).store := by
  unfold addMessagesStep
  simp only [h]
  split <;> rfl

theorem foldl_step_store_congr (multi : Bool) (messages : List ConversationMessage)
    (st1 st2 : LoopState) (h : st1.store = st2.store) :
    (messages.foldl (addMessagesStep multi) st1).store =
      (messages.foldl (addMessagesStep multi) st2).store := by
  induction messages generalizing st1 st2 with
  | nil => exact h
  | cons m rest ih => exact ih _ _ (step_store_congr multi st1 st2 m h)

theorem step_known_mono (multi : Bool) (st : LoopState) (m : ConversationMessage) (u key : Int)
    (h : u ∈ knownIds st.store key) : u ∈ knownIds (addMessagesStep multi st m).store key := by
  by_cases hk : m.uID ∈ knownIds st.store (toInt32 m.threadID)
  · rw [step_knownIds_of_known multi st m hk]; exact h
  · rw [step_knownIds_of_new multi st m hk]
    by_cases hkey : key = toInt32 m.threadID
    · rw [if_pos hkey, mem_qsetInsert]; exact Or.inr (hkey ▸ h)
    · rw [if_neg hkey]; exact h

theorem step_known_self (multi : Bool) (st : LoopState) (m : ConversationMessage) :
    m.uID ∈ knownIds (addMessagesStep multi st m).store (toInt32 m.threadID) := by
  by_cases hk : m.uID ∈ knownIds st.store (toInt32 m.threadID)
  · rw [step_knownIds_of_known multi st m hk]; exact hk
  · rw [step_knownIds_of_new multi st m hk, if_pos rfl, mem_qsetInsert]; exact Or.inl rfl

theorem foldl_step_known_mono (multi : Bool) (messages : List ConversationMessage)
    (st : LoopState) (u key : Int) (h : u ∈ knownIds st.store key) :
    u ∈ knownIds (messages.foldl (addMessagesStep multi) st).store key := by
  induction messages generalizing st with
  | nil => exact h
  | cons m rest ih => exact ih _ (step_known_mono multi st m u key h)

theorem addMessages_known_mono (multi : Bool) (s : Store) (messages : List ConversationMessage)
    (u key : Int) (h : u ∈ knownIds s key) : u ∈ knownIds (addMessages multi s messages).1 key := by
  rw [addMessages_knownIds]
  exact foldl_step_known_mono multi messages ⟨s, [], []⟩ u key h

theorem runCalls_known_mono (multi : Bool) (calls : List Call) (s : Store) (u key : Int)
    (h : u ∈ knownIds s key) : u ∈ knownIds (runCalls multi s calls) key := by
  induction calls generalizing s with
  | nil => exact h
  | cons c rest ih =>
    apply ih
    cases c with
    | addMessages messages => exact addMessages_known_mono multi s messages u key h
    | getConversation _ => exact h
    | activeConversations => exact h
    | replyToConversation conversationID message =>
      simp only [runCall, replyToConversation_store]
      exact h

/-- Once a message with the uID and thread id of m has gone through the
loop, the pass for a message with the same uID and thread id leaves the
store as it is, whatever else is processed afterwards. -/
theorem foldl_step_skip (multi : Bool) (st : LoopState) (m : ConversationMessage)
    (post : List ConversationMessage)
    (h : m.uID ∈ knownIds st.store (toInt32 m.threadID)) :
    ((m :: post).foldl (addMessagesStep multi) st).store =
      (post.foldl (addMessagesStep multi) st).store := by
  rw [List.foldl_cons]
  exact foldl_step_store_congr multi post _ _ (step_store_of_known multi st m h)

theorem delivered_known (multi : Bool) (s : Store) (pre mid : List ConversationMessage)
    (m : ConversationMessage) :
    m.uID ∈ knownIds ((pre ++ m :: mid).foldl (addMessagesStep multi) ⟨s, [], []⟩).store
      (toInt32 m.threadID) := by
  rw [List.foldl_append, List.foldl_cons]
  exact foldl_step_known_mono multi mid _ _ _ (step_known_self multi _ m)

/-- C1. Dedup idempotence of addMessages. Let a message m be delivered in the
batch pre ++ m :: mid on any store s, and let m2 have the uID and the thread id
of m. (1) Delivered again later, after any calls in between, m2 leaves
getConversation and the set of known uIDs of every thread id exactly as they
were before. (2) Delivered again among other messages of a later batch, m2
changes nothing: the outcome is that of the batch without m2. (3) The same
holds when m2 comes later in the batch of m. -/
theorem addMessages_dedup (multi : Bool) (s : Store) (pre mid : List ConversationMessage)
    (calls : List Call) (pre2 post : List ConversationMessage) (m m2 : ConversationMessage)
    (huid : m2.uID = m.uID) (hthread : m2.threadID = m.threadID) (threadId : Int) :
    (getConversation
        (addMessages multi (runCalls multi (addMessages multi s (pre ++ m :: mid)).1 calls)
          [m2]).1 threadId =
      getConversation (runCalls multi (addMessages multi s (pre ++ m :: mid)).1 calls) threadId
      ∧ knownIds
        (addMessages multi (runCalls multi (addMessages multi s (pre ++ m :: mid)).1 calls)
          [m2]).1 threadId =
      knownIds (runCalls multi (addMessages multi s (pre ++ m :: mid)).1 calls) threadId)
    ∧ (getConversation
        (addMessages multi (runCalls multi (addMessages multi s (pre ++ m :: mid)).1 calls)
          (pre2 ++ m2 :: post)).1 threadId =
      getConversation
        (addMessages multi (runCalls multi (addMessages multi s (pre ++ m :: mid)).1 calls)
          (pre2 ++ post)).1 threadId
      ∧ knownIds
        (addMessages multi (runCalls multi (addMessages multi s (pre ++ m :: mid)).1 calls)
          (pre2 ++ m2 :: post)).1 threadId =
      knownIds
        (addMessages multi (runCalls multi (addMessages multi s (pre ++ m :: mid)).1 calls)
          (pre2 ++ post)).1 threadId)
    ∧ (getConversation (addMessages multi s (pre ++ m :: mid ++ m2 :: post)).1 threadId =
        getConversation (addMessages multi s (pre ++ m :: mid ++ post)).1 threadId
      ∧ knownIds (addMessages multi s (pre ++ m :: mid ++ m2 :: post)).1 threadId =
        knownIds (addMessages multi s (pre ++ m :: mid ++ post)).1 threadId) := by
  have key2 : ∀ (st : LoopState), m.uID ∈ knownIds st.store (toInt32 m.threadID) →
      ((m2 :: post).foldl (addMessagesStep multi) st).store =
        (post.foldl (addMessagesStep multi) st).store := by
    intro st hst
    apply foldl_step_skip
    rw [huid, hthread]; exact hst
  have hs1 : m.uID ∈ knownIds (runCalls multi (addMessages multi s (pre ++ m :: mid)).1 calls)
      (toInt32 m.threadID) := by
    apply runCalls_known_mono
    rw [addMessages_knownIds]
    exact delivered_known multi s pre mid m
  refine ⟨?_, ?_, ?_⟩
  · have e : (addMessagesStep multi
        ⟨runCalls multi (addMessages multi s (pre ++ m :: mid)).1 calls, [], []⟩ m2).store =
        runCalls multi (addMessages multi s (pre ++ m :: mid)).1 calls :=
      step_store_of_known multi _ m2 (by rw [huid, hthread]; exact hs1)
    rw [addMessages_getConversation, addMessages_knownIds, List.foldl_cons, List.foldl_nil, e]
    exact ⟨rfl, rfl⟩
  · have hst : m.uID ∈ knownIds ((pre2.foldl (addMessagesStep multi)
        ⟨runCalls multi (addMessages multi s (pre ++ m :: mid)).1 calls, [], []⟩).store)
        (toInt32 m.threadID) := by
      apply foldl_step_known_mono
      apply runCalls_known_mono
      rw [addMessages_knownIds]
      exact delivered_known multi s pre mid m
    have e := key2 _ hst
    rw [← List.foldl_append, ← List.foldl_append] at e
    rw [addMessages_getConversation, addMessages_getConversation, addMessages_knownIds,
      addMessages_knownIds, e]
    exact ⟨rfl, rfl⟩
  · have e := key2 _ (delivered_known multi s pre mid m)
    rw [← List.foldl_append, ← List.foldl_append] at e
    rw [addMessages_getConversation, addMessages_getConversation, addMessages_knownIds,
      addMessages_knownIds, e]
    exact ⟨rfl, rfl⟩

/-- C1 at a concrete input: on the empty store the batch [m, m] and the
batches [m] then [m] both give a conversation of length 1. -/
theorem addMessages_dedup_witness :
    (getConversation
        (addMessages false (runCalls false (addMessages false Store.empty
          ([] ++ mkMessage 1 7 10 :: [])).1 []) [mkMessage 1 7 10]).1 7 =
      getConversation (runCalls false (addMessages false Store.empty
          ([] ++ mkMessage 1 7 10 :: [])).1 []) 7
      ∧ knownIds
        (addMessages false (runCalls false (addMessages false Store.empty
          ([] ++ mkMessage 1 7 10 :: [])).1 []) [mkMessage 1 7 10]).1 7 =
      knownIds (runCalls false (addMessages false Store.empty
          ([] ++ mkMessage 1 7 10 :: [])).1 []) 7)
    ∧ (getConversation (addMessages false Store.empty [mkMessage 1 7 10, mkMessage 1 7 10]).1
        7).length = 1
    ∧ (getConversation (addMessages false (addMessages false Store.empty [mkMessage 1 7 10]).1
        [mkMessage 1 7 10]).1 7).length = 1 :=
  ⟨(addMessages_dedup false Store.empty [] [] [] [] [] (mkMessage 1 7 10) (mkMessage 1 7 10)
    rfl rfl 7).1, by decide, by decide⟩

/-! ## Order, signals and the in-flight set -/

theorem runCalls_empty_storeOK (multi : Bool) (calls : List Call) :
    StoreOK multi (runCalls multi Store.empty calls) :=
  runCalls_storeOK multi calls Store.empty (empty_storeOK multi)

/-- C3. Ordering invariant. In the store reached from the empty store by any
sequence of addMessages calls (any batches, in any order of arrival), for
every thread id the list returned by getConversation is non-decreasing by
message timestamp. -/
theorem getConversation_sorted (multi : Bool) (batches : List (List ConversationMessage))
    (threadId : Int) :
    (getConversation (addMessagesSeq multi Store.empty batches) threadId).Pairwise
      (fun a b => a.date ≤ b.date) := by
  rw [addMessagesSeq_eq_runCalls]
  exact getConversation_sorted_of_storeOK multi _ (runCalls_empty_storeOK multi _) threadId

theorem countP_isLoadedFor_perMessage (threadId : Int) (l : List Effect)
    (h : ∀ e ∈ l, isPerMessage e = true) : l.countP (isLoadedFor threadId) = 0 := by
  rw [List.countP_eq_zero]
  intro e he
  have := h e he
  cases e <;> simp_all [isPerMessage, isLoadedFor]

theorem countP_isLoadedFor_map (threadId : Int) (ids : List Int) (f : Int → Nat) :
    (ids.map (fun i => Effect.conversationLoaded i (f i))).countP (isLoadedFor threadId) =
      ids.count threadId := by
  induction ids with
  | nil => rfl
  | cons i rest ih =>
    rw [List.map_cons, List.countP_cons, ih, List.count_cons]
    simp [isLoadedFor]

/-- C7. The signal conversationLoaded is emitted once per touched thread. For
every store and every batch, addMessages emits conversationLoaded for a
thread id exactly once when some message of the batch (new or duplicate)
carries that thread id and not at all otherwise; and the effects of the call
split into a first part holding only conversationCreated/conversationUpdated
and a second part holding none of them, all conversationLoaded signals being
in the second part. -/
theorem addMessages_loaded_once (multi : Bool) (s : Store) (batch : List ConversationMessage)
    (threadId : Int) :
    (addMessages multi s batch).2.countP (isLoadedFor threadId) =
        (if threadId ∈ batch.map (fun m => m.threadID) then 1 else 0)
    ∧ ∃ first second, (addMessages multi s batch).2 = first ++ second
        ∧ (∀ e ∈ first, isPerMessage e = true)
        ∧ (∀ e ∈ second, isPerMessage e = false)
        ∧ (∀ e ∈ first, isLoaded e = false) := by
  have hper := foldl_step_emitted_perMessage multi batch ⟨s, [], []⟩ (by simp)
  constructor
  · rw [addMessages_effects, List.countP_append, List.countP_append,
      countP_isLoadedFor_perMessage threadId _ hper, countP_isLoadedFor_map]
    have hnd := foldl_qsetInsert_nodup batch [] List.nodup_nil
    have hmem := mem_foldl_qsetInsert batch [] threadId
    simp only [List.not_mem_nil, false_or] at hmem
    by_cases hin : threadId ∈ batch.map (fun m => m.threadID)
    · rw [if_pos hin, List.count_eq_one_of_mem hnd (hmem.mpr hin)]
      simp [isLoadedFor]
    · rw [if_neg hin, List.count_eq_zero_of_not_mem (fun hh => hin (hmem.mp hh))]
      simp [isLoadedFor]
  · refine ⟨_, _, addMessages_effects multi s batch, hper, ?_, ?_⟩
    · intro e he
      rcases List.mem_append.mp he with h | h
      · obtain ⟨i, _, hi⟩ := List.mem_map.mp h
        rw [← hi]; rfl
      · rw [List.mem_singleton.mp h]; rfl
    · intro e he
      have := hper e he
      cases e <;> simp_all [isPerMessage, isLoaded]

/-- C10. Resolve on delivery. For every in-flight set and every batch, after
addMessages the in-flight set is the earlier one without the thread ids of
all messages of the batch, duplicates included: an id stays in-flight exactly
when it was in-flight and no message of the batch carries it. The call wakes
all waiters, once, as its last effect. -/
theorem addMessages_resolves (multi : Bool) (s : Store) (batch : List ConversationMessage) :
    (addMessages multi s batch).1.conversationsWaitingForMessages =
        s.conversationsWaitingForMessages.filter
          (fun t => decide (t ∉ batch.map (fun m => m.threadID)))
    ∧ (∀ t, t ∈ (addMessages multi s batch).1.conversationsWaitingForMessages ↔
        (t ∈ s.conversationsWaitingForMessages ∧ ∀ m ∈ batch, m.threadID ≠ t))
    ∧ (addMessages multi s batch).2.count Effect.wakeAll = 1
    ∧ (addMessages multi s batch).2.getLast? = some Effect.wakeAll := by
  have hmem : ∀ t, t ∈ (batch.foldl (addMessagesStep multi) ⟨s, [], []⟩).updatedConversationIDs ↔
      t ∈ batch.map (fun m => m.threadID) := by
    intro t
    rw [foldl_step_ids, mem_foldl_qsetInsert]
    simp
  have h1 : (addMessages multi s batch).1.conversationsWaitingForMessages =
      s.conversationsWaitingForMessages.filter
        (fun t => decide (t ∉ batch.map (fun m => m.threadID))) := by
    show qsetSubtract _ _ = _
    rw [foldl_step_waiting]
    unfold qsetSubtract
    apply List.filter_congr
    intro t _
    simp only [hmem t]
  refine ⟨h1, ?_, ?_, ?_⟩
  · intro t
    rw [h1, List.mem_filter]
    simp only [decide_eq_true_eq, List.mem_map, not_exists, not_and]
  · have hper := foldl_step_emitted_perMessage multi batch ⟨s, [], []⟩ (by simp)
    rw [addMessages_effects, List.count_append, List.count_append]
    have z1 : List.count Effect.wakeAll
        (batch.foldl (addMessagesStep multi) ⟨s, [], []⟩).emitted = 0 := by
      apply List.count_eq_zero_of_not_mem
      intro hh
      have := hper _ hh
      simp [isPerMessage] at this
    have z2 : ∀ (ids : List Int) (f : Int → Nat),
        List.count Effect.wakeAll (ids.map (fun i => Effect.conversationLoaded i (f i))) = 0 := by
      intro ids f
      apply List.count_eq_zero_of_not_mem
      intro hh
      obtain ⟨i, _, hi⟩ := List.mem_map.mp hh
      cases hi
    rw [z1, z2]
    rfl
  · rw [addMessages_effects, ← List.append_assoc, List.getLast?_append]
    rfl

/-! ## Where a new message lands -/

theorem loopAt_storeOK (multi : Bool) (calls : List Call) (earlier : List ConversationMessage) :
    StoreOK multi (loopAt multi calls earlier).store :=
  foldl_step_storeOK multi earlier _ (runCalls_empty_storeOK multi calls)

theorem mapValues_mapInsert (multi : Bool) (t : Int) (m : ConversationMessage) (c : MessageMap)
    (hs : MapSorted multi c) :
    mapValues (mapInsert multi t m c) =
      mapValues (c.filter (fun e => decide (e.1 < t))) ++ m :: mapValues (keptAfter multi t c) := by
  rw [mapInsert_eq multi t m c hs]
  simp [mapValues]

theorem mapInsert_length (multi : Bool) (t : Int) (m : ConversationMessage) (c : MessageMap)
    (hs : MapSorted multi c) :
    (mapInsert multi t m c).length = mapInsertPos t c + 1 + (keptAfter multi t c).length := by
  rw [mapInsert_eq multi t m c hs, mapInsertPos_eq multi t c hs]
  simp only [List.length_append, List.length_cons]
  omega

theorem keptAfter_sublist (multi : Bool) (t : Int) (c : MessageMap) :
    (keptAfter multi t c).Sublist c := List.filter_sublist _

theorem mapInsert_latest_iff (multi : Bool) (t : Int) (m : ConversationMessage) (c : MessageMap)
    (hs : MapSorted multi c) (hfresh : ∀ e ∈ c, e.2 ≠ m) :
    mapInsertPos t c + 1 = (mapInsert multi t m c).length ↔
      (mapValues (mapInsert multi t m c)).getLast? = some m := by
  rw [mapInsert_length multi t m c hs, mapValues_mapInsert multi t m c hs]
  cases hB : keptAfter multi t c with
  | nil =>
    simp [mapValues]
  | cons e rest =>
    have hne : mapValues (e :: rest) ≠ [] := by simp [mapValues]
    have hlast : (mapValues (c.filter (fun e => decide (e.1 < t))) ++ m :: mapValues (e :: rest)).getLast?
        = (mapValues (e :: rest)).getLast? := by
      rw [List.getLast?_append_cons]
      show (m :: e.2 :: mapValues rest).getLast? = (e.2 :: mapValues rest).getLast?
      rw [List.getLast?_cons_cons]
    rw [hlast]
    constructor
    · intro h
      simp only [List.length_cons] at h
      omega
    · intro h
      exfalso
      have hm := List.mem_of_getLast?_eq_some h
      rw [← hB] at hm
      obtain ⟨e2, he2, hee⟩ := List.mem_map.mp hm
      exact hfresh e2 ((keptAfter_sublist multi t c).subset he2) hee

theorem conv_ne_nil_range (multi : Bool) (s : Store) (h : StoreOK multi s) (key : Int)
    (hne : getConversation s key ≠ []) : toInt32 key = key := by
  have hne2 : hashValue s.m_conversations key ≠ [] := by
    intro hh
    apply hne
    unfold getConversation mapValues
    rw [hh]; rfl
  obtain ⟨e, he⟩ := List.exists_mem_of_ne_nil _ hne2
  have := (h key).thread_eq e he
  rw [← this]
  exact toInt32_idem _

theorem conv_contains (s : Store) (key : Int) (hne : getConversation s key ≠ []) :
    hashContains s.m_conversations key = true := by
  apply hashContains_of_value_ne_nil
  intro hh
  apply hne
  unfold getConversation mapValues
  rw [hh]; rfl

theorem conv_fresh (multi : Bool) (s : Store) (h : StoreOK multi s) (key : Int)
    (m : ConversationMessage) (hnew : m.uID ∉ knownIds s key) :
    ∀ e ∈ hashValue s.m_conversations key, e.2 ≠ m := by
  intro e he hee
  exact hnew (hee ▸ (h key).uid_known e he)

theorem step_getConversation_of_new (multi : Bool) (st : LoopState) (m : ConversationMessage)
    (hk : toInt32 m.threadID = m.threadID) (hnew : m.uID ∉ knownIds st.store m.threadID) :
    getConversation (addMessagesStep multi st m).store m.threadID =
      mapValues (mapInsert multi m.date m (hashValue st.store.m_conversations m.threadID)) := by
  have hnew2 : m.uID ∉ knownIds st.store (toInt32 m.threadID) := by rw [hk]; exact hnew
  unfold getConversation
  rw [step_conv_of_new multi st m hnew2, hk, if_pos rfl]

theorem foldl_delivered_known (multi : Bool) (st : LoopState)
    (messages : List ConversationMessage) (m0 : ConversationMessage) (hm : m0 ∈ messages) :
    m0.uID ∈ knownIds (messages.foldl (addMessagesStep multi) st).store (toInt32 m0.threadID) := by
  obtain ⟨front, back, hsplit⟩ := List.append_of_mem hm
  rw [hsplit, List.foldl_append, List.foldl_cons]
  exact foldl_step_known_mono multi back _ _ _ (step_known_self multi _ m0)

theorem runCalls_delivered_known (multi : Bool) (calls : List Call) (s : Store)
    (batch : List ConversationMessage) (m0 : ConversationMessage)
    (hb : Call.addMessages batch ∈ calls) (hm : m0 ∈ batch) :
    m0.uID ∈ knownIds (runCalls multi s calls) (toInt32 m0.threadID) := by
  induction calls generalizing s with
  | nil => simp at hb
  | cons c rest ih =>
    rcases List.mem_cons.mp hb with h | h
    · subst h
      have h1 : m0.uID ∈ knownIds (addMessages multi s batch).1 (toInt32 m0.threadID) := by
        rw [addMessages_knownIds]
        exact foldl_delivered_known multi _ batch m0 hm
      exact runCalls_known_mono multi rest (addMessages multi s batch).1 _ _ h1
    · exact ih _ h

/-- C6. The signal conversationUpdated. Take the loop of addMessages at the
start of the pass for a message m, in a store produced by any calls and after
any earlier messages of the batch. (1) If the uID of m is not yet known for
its thread and the thread already holds a message, the pass inserts m and
either emits conversationUpdated(m) and nothing else, m being the last element
of getConversation afterwards, or emits nothing, m not being the last element.
(2) If some message of the thread has a strictly greater timestamp than m,
the pass emits nothing. (3) If the uID of m is already known for its thread
(a duplicate), the pass emits nothing. (4) Likewise if a message with the uID
and the thread id of m was delivered before, earlier in the batch or by an
earlier call of addMessages. -/
theorem addMessages_updated (multi : Bool) (calls : List Call)
    (earlier : List ConversationMessage) (m : ConversationMessage) :
    (m.uID ∉ knownIds (loopAt multi calls earlier).store m.threadID →
      getConversation (loopAt multi calls earlier).store m.threadID ≠ [] →
        m ∈ getConversation (addMessagesStep multi (loopAt multi calls earlier) m).store m.threadID
        ∧ (((addMessagesStep multi (loopAt multi calls earlier) m).emitted =
                (loopAt multi calls earlier).emitted ++ [Effect.conversationUpdated m]
              ∧ (getConversation (addMessagesStep multi (loopAt multi calls earlier) m).store
                  m.threadID).getLast? = some m)
            ∨ ((addMessagesStep multi (loopAt multi calls earlier) m).emitted =
                (loopAt multi calls earlier).emitted
              ∧ (getConversation (addMessagesStep multi (loopAt multi calls earlier) m).store
                  m.threadID).getLast? ≠ some m)))
    ∧ ((∃ x ∈ getConversation (loopAt multi calls earlier).store m.threadID, m.date < x.date) →
        (addMessagesStep multi (loopAt multi calls earlier) m).emitted =
          (loopAt multi calls earlier).emitted)
    ∧ (m.uID ∈ knownIds (loopAt multi calls earlier).store m.threadID →
        (addMessagesStep multi (loopAt multi calls earlier) m).emitted =
          (loopAt multi calls earlier).emitted)
    ∧ ((∃ m0, m0.uID = m.uID ∧ m0.threadID = m.threadID ∧
          (m0 ∈ earlier ∨ ∃ batch, Call.addMessages batch ∈ calls ∧ m0 ∈ batch)) →
        (addMessagesStep multi (loopAt multi calls earlier) m).emitted =
          (loopAt multi calls earlier).emitted) := by
  have hOK := loopAt_storeOK multi calls earlier
  have hdelivered : (∃ m0, m0.uID = m.uID ∧ m0.threadID = m.threadID ∧
      (m0 ∈ earlier ∨ ∃ batch, Call.addMessages batch ∈ calls ∧ m0 ∈ batch)) →
      m.uID ∈ knownIds (loopAt multi calls earlier).store (toInt32 m.threadID) := by
    rintro ⟨m0, hu, ht, hin | ⟨batch, hb, hin⟩⟩
    · rw [← hu, ← ht]
      exact foldl_delivered_known multi _ earlier m0 hin
    · rw [← hu, ← ht]
      exact foldl_step_known_mono multi earlier _ _ _
        (runCalls_delivered_known multi calls Store.empty batch m0 hb hin)
  generalize loopAt multi calls earlier = st at hOK hdelivered ⊢
  have hdup : m.uID ∈ knownIds st.store (toInt32 m.threadID) →
      (addMessagesStep multi st m).emitted = st.emitted :=
    step_emitted_of_known multi st m
  have hnewcase : m.uID ∉ knownIds st.store m.threadID →
      getConversation st.store m.threadID ≠ [] →
      m ∈ getConversation (addMessagesStep multi st m).store m.threadID
      ∧ (((addMessagesStep multi st m).emitted = st.emitted ++ [Effect.conversationUpdated m]
            ∧ (getConversation (addMessagesStep multi st m).store m.threadID).getLast? = some m)
          ∨ ((addMessagesStep multi st m).emitted = st.emitted
            ∧ (getConversation (addMessagesStep multi st m).store m.threadID).getLast? ≠ some m)) := by
    intro hnew hne
    have hk := conv_ne_nil_range multi st.store hOK _ hne
    have hnew2 : m.uID ∉ knownIds st.store (toInt32 m.threadID) := by rw [hk]; exact hnew
    have hc := conv_contains st.store _ hne
    have hiff := mapInsert_latest_iff multi m.date m _ (hOK m.threadID).sorted
      (conv_fresh multi st.store hOK _ m hnew)
    rw [step_getConversation_of_new multi st m hk hnew, step_emitted_of_new multi st m hnew2, hk,
      if_neg (by simp [hc])]
    refine ⟨List.mem_map.mpr ⟨_, mem_mapInsert_self _ _ _ _, rfl⟩, ?_⟩
    by_cases hp : mapInsertPos m.date (hashValue st.store.m_conversations m.threadID) + 1 =
        (mapInsert multi m.date m (hashValue st.store.m_conversations m.threadID)).length
    · rw [if_pos hp]
      exact Or.inl ⟨rfl, hiff.mp hp⟩
    · rw [if_neg hp]
      exact Or.inr ⟨by simp, fun hh => hp (hiff.mpr hh)⟩
  refine ⟨hnewcase, ?_, ?_, fun hd => hdup (hdelivered hd)⟩
  · rintro ⟨x, hx, hlt⟩
    by_cases hkn : m.uID ∈ knownIds st.store (toInt32 m.threadID)
    · exact hdup hkn
    · have hne : getConversation st.store m.threadID ≠ [] := List.ne_nil_of_mem hx
      have hk := conv_ne_nil_range multi st.store hOK _ hne
      rw [hk] at hkn
      rcases (hnewcase hkn hne).2 with ⟨_, hlast⟩ | ⟨hem, _⟩
      · exfalso
        rw [step_getConversation_of_new multi st m hk hkn,
          mapValues_mapInsert multi _ m _ (hOK m.threadID).sorted] at hlast
        obtain ⟨e, he, hex⟩ := List.mem_map.mp hx
        have hdate := (hOK m.threadID).date_eq e he
        have hkept : e ∈ keptAfter multi m.date (hashValue st.store.m_conversations m.threadID) := by
          unfold keptAfter
          rw [List.mem_filter]
          refine ⟨he, ?_⟩
          have : m.date < e.1 := by rw [← hdate, hex]; exact hlt
          cases multi
          · simpa using this
          · simpa using Int.le_of_lt this
        have hne2 : mapValues (keptAfter multi m.date
            (hashValue st.store.m_conversations m.threadID)) ≠ [] :=
          List.ne_nil_of_mem (List.mem_map.mpr ⟨e, hkept, rfl⟩)
        obtain ⟨y, rest, hyr⟩ := List.exists_cons_of_ne_nil hne2
        rw [hyr, List.getLast?_append_cons, List.getLast?_cons_cons, ← hyr] at hlast
        have hmem := List.mem_of_getLast?_eq_some hlast
        obtain ⟨e2, he2, hee⟩ := List.mem_map.mp hmem
        exact conv_fresh multi st.store hOK _ m hkn e2
          ((keptAfter_sublist multi _ _).subset he2) hee
      · exact hem
  · intro hkn
    have hk := (hOK m.threadID).known_range (List.ne_nil_of_mem hkn)
    exact hdup (by rw [hk]; exact hkn)

/-- C6 at concrete inputs: on the empty store M1 (thread 7, timestamp 10),
M2 (timestamp 20), M0 (timestamp 5), in one batch or in three calls, emit
conversationCreated(M1) and conversationUpdated(M2) and nothing for M0; a
second M2 emits nothing. -/
theorem addMessages_updated_witness :
    ((mkMessage 2 7 20).uID ∉ knownIds (loopAt false [] [mkMessage 1 7 10]).store 7
      ∧ getConversation (loopAt false [] [mkMessage 1 7 10]).store 7 ≠ []
      ∧ (addMessagesStep false (loopAt false [] [mkMessage 1 7 10]) (mkMessage 2 7 20)).emitted =
          [Effect.conversationCreated (mkMessage 1 7 10),
           Effect.conversationUpdated (mkMessage 2 7 20)])
    ∧ ((∃ x ∈ getConversation (loopAt false [] [mkMessage 1 7 10, mkMessage 2 7 20]).store
          (mkMessage 0 7 5).threadID, (mkMessage 0 7 5).date < x.date)
      ∧ (addMessagesStep false (loopAt false [] [mkMessage 1 7 10, mkMessage 2 7 20])
          (mkMessage 0 7 5)).emitted =
        (loopAt false [] [mkMessage 1 7 10, mkMessage 2 7 20]).emitted)
    ∧ ((mkMessage 2 7 20).uID ∈
          knownIds (loopAt false [] [mkMessage 1 7 10, mkMessage 2 7 20]).store
            (mkMessage 2 7 20).threadID
      ∧ (addMessagesStep false (loopAt false [] [mkMessage 1 7 10, mkMessage 2 7 20])
          (mkMessage 2 7 20)).emitted =
        (loopAt false [] [mkMessage 1 7 10, mkMessage 2 7 20]).emitted)
    ∧ ((∃ m0, m0.uID = (mkMessage 2 7 20).uID ∧ m0.threadID = (mkMessage 2 7 20).threadID ∧
          (m0 ∈ ([] : List ConversationMessage) ∨
            ∃ batch, Call.addMessages batch ∈
              [Call.addMessages [mkMessage 1 7 10], Call.addMessages [mkMessage 2 7 20]] ∧
              m0 ∈ batch))
      ∧ (addMessagesStep false
          (loopAt false [Call.addMessages [mkMessage 1 7 10], Call.addMessages [mkMessage 2 7 20]] [])
          (mkMessage 2 7 20)).emitted = [])
    ∧ (addMessages false Store.empty [mkMessage 1 7 10, mkMessage 2 7 20, mkMessage 0 7 5]).2 =
        [Effect.conversationCreated (mkMessage 1 7 10),
         Effect.conversationUpdated (mkMessage 2 7 20),
         Effect.conversationLoaded 7 3, Effect.wakeAll]
    ∧ (addMessages false Store.empty [mkMessage 1 7 10]).2 =
        [Effect.conversationCreated (mkMessage 1 7 10), Effect.conversationLoaded 7 1,
         Effect.wakeAll]
    ∧ (addMessages false (runCalls false Store.empty [Call.addMessages [mkMessage 1 7 10]])
        [mkMessage 2 7 20]).2 =
        [Effect.conversationUpdated (mkMessage 2 7 20), Effect.conversationLoaded 7 2,
         Effect.wakeAll]
    ∧ (addMessages false (runCalls false Store.empty
        [Call.addMessages [mkMessage 1 7 10], Call.addMessages [mkMessage 2 7 20]])
        [mkMessage 0 7 5]).2 = [Effect.conversationLoaded 7 3, Effect.wakeAll] := by
  have hd : ∃ m0, m0.uID = (mkMessage 2 7 20).uID ∧ m0.threadID = (mkMessage 2 7 20).threadID ∧
      (m0 ∈ ([] : List ConversationMessage) ∨
        ∃ batch, Call.addMessages batch ∈
          [Call.addMessages [mkMessage 1 7 10], Call.addMessages [mkMessage 2 7 20]] ∧
          m0 ∈ batch) :=
    ⟨mkMessage 2 7 20, rfl, rfl, Or.inr ⟨[mkMessage 2 7 20], by simp, by simp⟩⟩
  refine ⟨⟨by decide, by decide, ?_⟩, ⟨by decide, ?_⟩, ⟨by decide, ?_⟩, ⟨hd, ?_⟩,
    by decide, by decide, by decide, by decide⟩
  · rcases ((addMessages_updated false [] [mkMessage 1 7 10] (mkMessage 2 7 20)).1
      (by decide) (by decide)).2 with h | h
    · exact h.1
    · exact absurd h.2 (by decide)
  · exact (addMessages_updated false [] [mkMessage 1 7 10, mkMessage 2 7 20]
      (mkMessage 0 7 5)).2.1 (by decide)
  · exact (addMessages_updated false [] [mkMessage 1 7 10, mkMessage 2 7 20]
      (mkMessage 2 7 20)).2.2.1 (by decide)
  · exact (addMessages_updated false
      [Call.addMessages [mkMessage 1 7 10], Call.addMessages [mkMessage 2 7 20]] []
      (mkMessage 2 7 20)).2.2.2 hd

/-- C4. Two messages of thread 7 with the same timestamp 10 and the uIDs 1
and 2 are delivered in this order, in one batch or in two. The insert of the
second into the QMap replaces the first: getConversation(7) holds the second
message only, so the first does not appear before the second; it does not
appear at all. -/
theorem equal_timestamp_drops_earlier :
    getConversation (addMessages false Store.empty [mkMessage 1 7 10, mkMessage 2 7 10]).1 7 =
        [mkMessage 2 7 10]
    ∧ mkMessage 1 7 10 ∉
        getConversation (addMessages false Store.empty [mkMessage 1 7 10, mkMessage 2 7 10]).1 7
    ∧ getConversation (addMessages false Store.empty [mkMessage 1 7 10]).1 7 =
        [mkMessage 1 7 10]
    ∧ getConversation
        (addMessages false (addMessages false Store.empty [mkMessage 1 7 10]).1
          [mkMessage 2 7 10]).1 7 = [mkMessage 2 7 10] := by
  decide

/-- Where a pass of addMessages puts a message b whose uID is not yet known
for its thread, the thread id fitting 32 bits: getConversation afterwards is
front ++ b :: back, where front holds exactly the earlier messages of the
thread with a strictly smaller timestamp, back holds only earlier messages
with a timestamp not smaller than that of b, among them all with a strictly
greater one. If every earlier message of the thread has a strictly smaller
timestamp, b is the last element; with a QMap also if none has a greater
timestamp. -/
theorem addMessages_insert_position (multi : Bool) (calls : List Call)
    (earlier : List ConversationMessage) (b : ConversationMessage)
    (hlo : -2147483648 ≤ b.threadID) (hhi : b.threadID < 2147483648)
    (hnew : b.uID ∉ knownIds (loopAt multi calls earlier).store b.threadID) :
    (∃ front back,
        getConversation (addMessagesStep multi (loopAt multi calls earlier) b).store b.threadID =
          front ++ b :: back
        ∧ (∀ x, x ∈ front ↔
            (x ∈ getConversation (loopAt multi calls earlier).store b.threadID ∧ x.date < b.date))
        ∧ (∀ x ∈ back,
            x ∈ getConversation (loopAt multi calls earlier).store b.threadID ∧ b.date ≤ x.date)
        ∧ (∀ x ∈ getConversation (loopAt multi calls earlier).store b.threadID,
            b.date < x.date → x ∈ back))
    ∧ ((∀ x ∈ getConversation (loopAt multi calls earlier).store b.threadID, x.date < b.date) →
        (getConversation (addMessagesStep multi (loopAt multi calls earlier) b).store
          b.threadID).getLast? = some b)
    ∧ (multi = false →
        (∀ x ∈ getConversation (loopAt multi calls earlier).store b.threadID, x.date ≤ b.date) →
        (getConversation (addMessagesStep multi (loopAt multi calls earlier) b).store
          b.threadID).getLast? = some b) := by
  have hOK := loopAt_storeOK multi calls earlier
  generalize loopAt multi calls earlier = st at hOK hnew ⊢
  have hk := toInt32_of_range _ hlo hhi
  have hT := hOK b.threadID
  rw [step_getConversation_of_new multi st b hk hnew, mapValues_mapInsert multi _ b _ hT.sorted]
  have hback : ∀ x ∈ mapValues (keptAfter multi b.date (hashValue st.store.m_conversations b.threadID)),
      x ∈ getConversation st.store b.threadID ∧ b.date ≤ x.date := by
    intro x hx
    obtain ⟨e, he, hex⟩ := List.mem_map.mp hx
    have he2 := List.mem_filter.mp he
    refine ⟨List.mem_map.mpr ⟨e, he2.1, hex⟩, ?_⟩
    rw [← hex, hT.date_eq e he2.1]
    have h3 := he2.2
    cases multi
    · simp only [Bool.false_eq_true, if_false, decide_eq_true_eq] at h3; omega
    · simpa using h3
  have hback2 : ∀ x ∈ getConversation st.store b.threadID, b.date < x.date →
      x ∈ mapValues (keptAfter multi b.date (hashValue st.store.m_conversations b.threadID)) := by
    intro x hx hlt
    obtain ⟨e, he, hex⟩ := List.mem_map.mp hx
    refine List.mem_map.mpr ⟨e, ?_, hex⟩
    unfold keptAfter
    rw [List.mem_filter]
    refine ⟨he, ?_⟩
    have : b.date < e.1 := by rw [← hT.date_eq e he, hex]; exact hlt
    cases multi
    · simpa using this
    · simpa using Int.le_of_lt this
  refine ⟨⟨_, _, rfl, ?_, hback, hback2⟩, ?_, ?_⟩
  · intro x
    constructor
    · intro hx
      obtain ⟨e, he, hex⟩ := List.mem_map.mp hx
      have he2 := List.mem_filter.mp he
      refine ⟨List.mem_map.mpr ⟨e, he2.1, hex⟩, ?_⟩
      rw [← hex, hT.date_eq e he2.1]
      simpa using he2.2
    · rintro ⟨hx, hlt⟩
      obtain ⟨e, he, hex⟩ := List.mem_map.mp hx
      refine List.mem_map.mpr ⟨e, ?_, hex⟩
      rw [List.mem_filter]
      refine ⟨he, ?_⟩
      have : e.1 < b.date := by rw [← hT.date_eq e he, hex]; exact hlt
      simpa using this
  · intro hall
    have hnil : mapValues (keptAfter multi b.date (hashValue st.store.m_conversations b.threadID))
        = [] := by
      rw [List.eq_nil_iff_forall_not_mem]
      intro x hx
      have h1 := hback x hx
      have h2 := hall x h1.1
      omega
    rw [hnil]
    exact List.getLast?_concat _
  · intro hmulti hall
    subst hmulti
    have hnil : mapValues (keptAfter false b.date (hashValue st.store.m_conversations b.threadID))
        = [] := by
      rw [List.eq_nil_iff_forall_not_mem]
      intro x hx
      obtain ⟨e, he, hex⟩ := List.mem_map.mp hx
      have he2 := List.mem_filter.mp he
      have h2 := hall x (List.mem_map.mpr ⟨e, he2.1, hex⟩)
      rw [← hex, hT.date_eq e he2.1] at h2
      have h3 := he2.2
      simp only [Bool.false_eq_true, if_false, decide_eq_true_eq] at h3
      omega
    rw [hnil]
    exact List.getLast?_concat _

/-- The place of a new message at concrete inputs: after M1 (timestamp 10),
the message M2 (timestamp 20) of the same thread is the last element, and so
is, with a QMap, a message with the timestamp 10. -/
theorem addMessages_insert_position_witness :
    ((mkMessage 2 7 20).uID ∉ knownIds (loopAt false [] [mkMessage 1 7 10]).store 7
      ∧ (getConversation (addMessagesStep false (loopAt false [] [mkMessage 1 7 10])
          (mkMessage 2 7 20)).store (mkMessage 2 7 20).threadID).getLast? =
        some (mkMessage 2 7 20))
    ∧ (getConversation (addMessagesStep false (loopAt false [] [mkMessage 1 7 10])
        (mkMessage 2 7 10)).store (mkMessage 2 7 10).threadID).getLast? =
      some (mkMessage 2 7 10) :=
  ⟨⟨by decide,
    (addMessages_insert_position false [] [mkMessage 1 7 10] (mkMessage 2 7 20)
      (by decide) (by decide) (by decide)).2.1 (by decide)⟩,
   (addMessages_insert_position false [] [mkMessage 1 7 10] (mkMessage 2 7 10)
      (by decide) (by decide) (by decide)).2.2 rfl (by decide)⟩

/-! ## Counts, thread keys and threads without messages -/

theorem conv_length_le_known (multi : Bool) (s : Store) (h : StoreOK multi s) (key : Int) :
    (getConversation s key).length ≤ (knownIds s key).length
    ∧ (multi = true → (getConversation s key).length = (knownIds s key).length) := by
  have hT := h key
  have hlen : (getConversation s key).length =
      ((hashValue s.m_conversations key).map (fun e => e.2.uID)).length := by
    simp [getConversation, mapValues]
  have hsub : (hashValue s.m_conversations key).map (fun e => e.2.uID) ⊆ knownIds s key := by
    intro u hu
    obtain ⟨e, he, hee⟩ := List.mem_map.mp hu
    exact hee ▸ hT.uid_known e he
  have hle := (List.subperm_of_subset hT.uid_nodup hsub).length_le
  refine ⟨hlen ▸ hle, fun hm => ?_⟩
  have hge := (List.subperm_of_subset hT.known_nodup (hT.known_stored hm)).length_le
  omega

/-- C2. The thread id is cut to 32 bits on insertion. A message with the
thread id 4294967301 (2^32 + 5), delivered to the empty store, is not in
getConversation(4294967301) afterwards; it is in getConversation(5). -/
theorem addMessages_threadId_truncated :
    getConversation (addMessages false Store.empty [mkMessage 1 4294967301 10]).1 4294967301 = []
    ∧ getConversation (addMessages false Store.empty [mkMessage 1 4294967301 10]).1 5 =
        [mkMessage 1 4294967301 10]
    ∧ getConversation (addMessages true Store.empty [mkMessage 1 4294967301 10]).1 4294967301 = []
    ∧ getConversation (addMessages true Store.empty [mkMessage 1 4294967301 10]).1 5 =
        [mkMessage 1 4294967301 10] := by
  decide

/-- C5. After replyToConversation for the unknown thread 7 the thread has an
entry without messages; the first message delivered for thread 7 is then
announced with conversationUpdated and not with conversationCreated, although
getConversation(7) was empty right before. -/
theorem addMessages_after_reply_not_created :
    getConversation (replyToConversation Store.empty 7 "text").1 7 = []
    ∧ (addMessages false (replyToConversation Store.empty 7 "text").1 [mkMessage 1 7 10]).2 =
        [Effect.conversationUpdated (mkMessage 1 7 10), Effect.conversationLoaded 7 1,
         Effect.wakeAll]
    ∧ (addMessages true (replyToConversation Store.empty 7 "text").1 [mkMessage 1 7 10]).2 =
        [Effect.conversationUpdated (mkMessage 1 7 10), Effect.conversationLoaded 7 1,
         Effect.wakeAll] := by
  decide

/-- C8. Two messages of thread 7 with the same timestamp and the uIDs 1 and
2 are delivered to the empty store. conversationLoaded carries the count 2,
the size of the set of known uIDs that line 149 calls numMessages, while
getConversation(7) has one element after the call, the second message having
replaced the first in the QMap. -/
theorem loaded_count_exceeds_conversation :
    (addMessages false Store.empty [mkMessage 1 7 10, mkMessage 2 7 10]).2 =
        [Effect.conversationCreated (mkMessage 1 7 10),
         Effect.conversationUpdated (mkMessage 2 7 10),
         Effect.conversationLoaded 7 2, Effect.wakeAll]
    ∧ (getConversation
        (addMessages false Store.empty [mkMessage 1 7 10, mkMessage 2 7 10]).1 7).length = 1
    ∧ knownIds (addMessages false Store.empty [mkMessage 1 7 10, mkMessage 2 7 10]).1 7 =
        [1, 2] := by
  decide

/-- The count of conversationLoaded. In every store produced from the empty
store by calls of the public operations and for every batch, each
conversationLoaded(threadId, count) that addMessages emits carries the number
of uIDs known for threadId after the call; the length of
getConversation(threadId) after the call is never greater than this count,
and is equal to it when the ordered map keeps messages with equal timestamps
side by side (QMultiMap). -/
theorem addMessages_loaded_count (multi : Bool) (calls : List Call)
    (batch : List ConversationMessage) (threadId : Int) (count : Nat)
    (h : Effect.conversationLoaded threadId count ∈
      (addMessages multi (runCalls multi Store.empty calls) batch).2) :
    count = (knownIds (addMessages multi (runCalls multi Store.empty calls) batch).1 threadId).length
    ∧ (getConversation (addMessages multi (runCalls multi Store.empty calls) batch).1
        threadId).length ≤ count
    ∧ (multi = true →
        (getConversation (addMessages multi (runCalls multi Store.empty calls) batch).1
          threadId).length = count) := by
  have hOK : StoreOK multi (addMessages multi (runCalls multi Store.empty calls) batch).1 :=
    addMessages_storeOK multi _ batch (runCalls_empty_storeOK multi calls)
  have hcount : count =
      (knownIds (addMessages multi (runCalls multi Store.empty calls) batch).1 threadId).length := by
    rw [addMessages_effects] at h
    rcases List.mem_append.mp h with h1 | h1
    · have := foldl_step_emitted_perMessage multi batch
        ⟨runCalls multi Store.empty calls, [], []⟩ (by simp) _ h1
      simp [isPerMessage] at this
    · rcases List.mem_append.mp h1 with h2 | h2
      · obtain ⟨i, _, hi⟩ := List.mem_map.mp h2
        injection hi with h3 h4
        rw [← h4, h3]
      · simp at h2
  have hle := conv_length_le_known multi _ hOK threadId
  rw [← hcount] at hle
  exact ⟨hcount, hle⟩

/-- The count of conversationLoaded at a concrete input: after M1 (timestamp
10), M2 (20) and M0 (5) in thread 7 the count is 3. -/
theorem addMessages_loaded_count_witness :
    Effect.conversationLoaded 7 3 ∈
      (addMessages false (runCalls false Store.empty [])
        [mkMessage 1 7 10, mkMessage 2 7 20, mkMessage 0 7 5]).2
    ∧ 3 = (knownIds (addMessages false (runCalls false Store.empty [])
        [mkMessage 1 7 10, mkMessage 2 7 20, mkMessage 0 7 5]).1 7).length
    ∧ (getConversation (addMessages false (runCalls false Store.empty [])
        [mkMessage 1 7 10, mkMessage 2 7 20, mkMessage 0 7 5]).1 7).length ≤ 3 :=
  ⟨by decide,
   (addMessages_loaded_count false [] [mkMessage 1 7 10, mkMessage 2 7 20, mkMessage 0 7 5] 7 3
      (by decide)).1,
   (addMessages_loaded_count false [] [mkMessage 1 7 10, mkMessage 2 7 20, mkMessage 0 7 5] 7 3
      (by decide)).2.1⟩

/-- C9. The loop of activeConversations stops at the first thread without
messages. After replyToConversation for the unknown thread 1 and a message
delivered for thread 2, thread 1 comes first in the iteration and the result
is empty, although thread 2 holds a message. Only when the thread without
messages comes last in the iteration is the result the expected one. -/
theorem activeConversations_stops_at_empty :
    (runCalls false Store.empty
        [Call.replyToConversation 1 "text", Call.addMessages [mkMessage 1 2 10]]).m_conversations =
      [(1, []), (2, [(10, mkMessage 1 2 10)])]
    ∧ activeConversations (runCalls false Store.empty
        [Call.replyToConversation 1 "text", Call.addMessages [mkMessage 1 2 10]]) = []
    ∧ getConversation (runCalls false Store.empty
        [Call.replyToConversation 1 "text", Call.addMessages [mkMessage 1 2 10]]) 2 =
      [mkMessage 1 2 10]
    ∧ activeConversations (runCalls true Store.empty
        [Call.replyToConversation 1 "text", Call.addMessages [mkMessage 1 2 10]]) = []
    ∧ activeConversationsLoop [(1, []), (2, [(10, mkMessage 1 2 10)])] [] = []
    ∧ activeConversationsLoop [(2, [(10, mkMessage 1 2 10)]), (1, [])] [] = [mkMessage 1 2 10] := by
  decide

/-! ## Replies, requests and sends -/

theorem replyToConversation_effects (s : Store) (conversationID : Int) (message : String) :
    (replyToConversation s conversationID message).2 =
      match (hashValue s.m_conversations conversationID).head? with
      | none => some []
      | some (_, first) =>
        if first.isMultitarget then some []
        else if first.addresses.length > 1 then some []
        else
          match first.addresses.head? with
          | none => none
          | some address => some [Effect.sendSms address message first.subID] := by
  unfold replyToConversation
  simp only [hashValue_hashIndex]
  cases (hashValue s.m_conversations conversationID).head? with
  | none => rfl
  | some e =>
    obtain ⟨t, first⟩ := e
    simp only
    by_cases h1 : first.isMultitarget = true
    · rw [if_pos h1, if_pos h1]
    · rw [if_neg h1, if_neg h1]
      by_cases h2 : first.addresses.length > 1
      · rw [if_pos h2, if_pos h2]
      · rw [if_neg h2, if_neg h2]
        cases first.addresses.head? <;> rfl

/-- C13, as stated, fails: thread 7 holds an oldest message with one address
(timestamp 10) and a latest message with two addresses (timestamp 20). The
reply is sent, to the address and with the subscription id of the oldest
message, although the latest message has two addresses. -/
theorem reply_latest_counterexample :
    getConversation
        (addMessages false Store.empty
          [mkMessageTo 1 7 10 ["+100"], mkMessageTo 2 7 20 ["+200", "+300"]]).1 7 =
      [mkMessageTo 1 7 10 ["+100"], mkMessageTo 2 7 20 ["+200", "+300"]]
    ∧ (replyToConversation
        (addMessages false Store.empty
          [mkMessageTo 1 7 10 ["+100"], mkMessageTo 2 7 20 ["+200", "+300"]]).1 7 "reply").2 =
      some [Effect.sendSms "+100" "reply" 1]
    ∧ (replyToConversation
        (addMessages true Store.empty
          [mkMessageTo 1 7 10 ["+100"], mkMessageTo 2 7 20 ["+200", "+300"]]).1 7 "reply").2 =
      some [Effect.sendSms "+100" "reply" 1] := by
  decide

/-- C13, amended. The validation of a reply is decided by the oldest message
of the thread. For every store and every thread whose conversation starts
with the message first: replyToConversation issues no send if first is
multitarget, issues no send if first has more than one address, and issues
exactly one send, with the single address of first, the body and the
subscription id of first, if first is not multitarget and has one address. -/
theorem replyToConversation_first (s : Store) (conversationID : Int) (body : String)
    (first : ConversationMessage) (rest : List ConversationMessage)
    (h : getConversation s conversationID = first :: rest) :
    (first.isMultitarget = true →
        (replyToConversation s conversationID body).2 = some [])
    ∧ (first.addresses.length > 1 →
        (replyToConversation s conversationID body).2 = some [])
    ∧ (∀ address, first.isMultitarget = false → first.addresses = [address] →
        (replyToConversation s conversationID body).2 =
          some [Effect.sendSms address body first.subID]) := by
  rw [replyToConversation_effects]
  unfold getConversation mapValues at h
  cases hc : hashValue s.m_conversations conversationID with
  | nil => rw [hc] at h; simp at h
  | cons e tail =>
    rw [hc] at h
    obtain ⟨t, m⟩ := e
    simp only [List.map_cons, List.cons.injEq] at h
    obtain ⟨hm, _⟩ := h
    subst hm
    simp only [List.head?_cons]
    refine ⟨?_, ?_, ?_⟩
    · intro h1; simp [h1]
    · intro h2
      by_cases h1 : m.isMultitarget = true
      · simp [h1]
      · simp [h1, h2]
    · intro address h1 h2
      simp [h1, h2]

/-- C13 amended, at concrete inputs, each a thread 7 of two messages whose
oldest and latest differ. Oldest with one address, latest with two: the reply
goes to the address of the oldest. Oldest with two addresses, latest with
one: no send. Oldest multitarget, latest not: no send. -/
theorem replyToConversation_first_witness :
    (getConversation
        (addMessages false Store.empty
          [mkMessageTo 1 7 10 ["+100"], mkMessageTo 2 7 20 ["+200", "+300"]]).1 7 =
        mkMessageTo 1 7 10 ["+100"] :: [mkMessageTo 2 7 20 ["+200", "+300"]]
      ∧ (replyToConversation
          (addMessages false Store.empty
            [mkMessageTo 1 7 10 ["+100"], mkMessageTo 2 7 20 ["+200", "+300"]]).1 7 "reply").2 =
        some [Effect.sendSms "+100" "reply" (mkMessageTo 1 7 10 ["+100"]).subID])
    ∧ (getConversation
        (addMessages false Store.empty
          [mkMessageTo 1 7 10 ["+100", "+200"], mkMessageTo 2 7 20 ["+300"]]).1 7 =
        mkMessageTo 1 7 10 ["+100", "+200"] :: [mkMessageTo 2 7 20 ["+300"]]
      ∧ (mkMessageTo 1 7 10 ["+100", "+200"]).addresses.length > 1
      ∧ (replyToConversation
          (addMessages false Store.empty
            [mkMessageTo 1 7 10 ["+100", "+200"], mkMessageTo 2 7 20 ["+300"]]).1 7 "reply").2 =
        some [])
    ∧ (getConversation
        (addMessages false Store.empty
          [mkGroupMessage 1 7 10 ["+100"], mkMessageTo 2 7 20 ["+300"]]).1 7 =
        mkGroupMessage 1 7 10 ["+100"] :: [mkMessageTo 2 7 20 ["+300"]]
      ∧ (mkGroupMessage 1 7 10 ["+100"]).isMultitarget = true
      ∧ (replyToConversation
          (addMessages false Store.empty
            [mkGroupMessage 1 7 10 ["+100"], mkMessageTo 2 7 20 ["+300"]]).1 7 "reply").2 =
        some []) :=
  ⟨⟨by decide,
    (replyToConversation_first
      (addMessages false Store.empty
        [mkMessageTo 1 7 10 ["+100"], mkMessageTo 2 7 20 ["+200", "+300"]]).1 7 "reply"
      (mkMessageTo 1 7 10 ["+100"]) [mkMessageTo 2 7 20 ["+200", "+300"]]
      (by decide)).2.2 "+100" rfl rfl⟩,
   ⟨by decide, by decide,
    (replyToConversation_first
      (addMessages false Store.empty
        [mkMessageTo 1 7 10 ["+100", "+200"], mkMessageTo 2 7 20 ["+300"]]).1 7 "reply"
      (mkMessageTo 1 7 10 ["+100", "+200"]) [mkMessageTo 2 7 20 ["+300"]]
      (by decide)).2.1 (by decide)⟩,
   ⟨by decide, rfl,
    (replyToConversation_first
      (addMessages false Store.empty
        [mkGroupMessage 1 7 10 ["+100"], mkMessageTo 2 7 20 ["+300"]]).1 7 "reply"
      (mkGroupMessage 1 7 10 ["+100"]) [mkMessageTo 2 7 20 ["+300"]]
      (by decide)).1 rfl⟩⟩

/-- C15. Range validation of requestConversation. For 32-bit start and end
the request is turned away exactly when start < 0 or end < 0 or end < start,
and goes on to the worker, with the arguments unchanged, exactly when
0 <= start <= end. Where the difference end - start is computed, both being
non-negative, the 32-bit difference is the exact one: it does not overflow. -/
theorem requestConversation_range (conversationID start end_ : Int)
    (hs1 : -2147483648 ≤ start) (hs2 : start < 2147483648)
    (he1 : -2147483648 ≤ end_) (he2 : end_ < 2147483648) :
    (requestConversation conversationID start end_ = none ↔
        (start < 0 ∨ end_ < 0 ∨ end_ < start))
    ∧ (requestConversation conversationID start end_ = some (conversationID, start, end_) ↔
        (0 ≤ start ∧ start ≤ end_))
    ∧ (0 ≤ start → 0 ≤ end_ → toInt32 (end_ - start) = end_ - start) := by
  have hno : 0 ≤ start → 0 ≤ end_ → toInt32 (end_ - start) = end_ - start := by
    intro h1 h2
    exact toInt32_of_range _ (by omega) (by omega)
  refine ⟨?_, ?_, hno⟩
  · unfold requestConversation
    by_cases h1 : start < 0 ∨ end_ < 0
    · rw [if_pos h1]
      constructor
      · intro _; rcases h1 with h | h
        · exact Or.inl h
        · exact Or.inr (Or.inl h)
      · intro _; rfl
    · rw [if_neg h1, hno (by omega) (by omega)]
      by_cases h2 : end_ - start < 0
      · rw [if_pos h2]
        constructor
        · intro _; exact Or.inr (Or.inr (by omega))
        · intro _; rfl
      · rw [if_neg h2]
        constructor
        · intro hh; cases hh
        · intro hh; omega
  · unfold requestConversation
    by_cases h1 : start < 0 ∨ end_ < 0
    · rw [if_pos h1]
      constructor
      · intro hh; cases hh
      · intro hh; omega
    · rw [if_neg h1, hno (by omega) (by omega)]
      by_cases h2 : end_ - start < 0
      · rw [if_pos h2]
        constructor
        · intro hh; cases hh
        · intro hh; omega
      · rw [if_neg h2]
        constructor
        · intro _; omega
        · intro _; rfl

/-- C15 at concrete inputs: the range 3 to 10 goes on to the worker and the
range 10 to 3 is turned away. -/
theorem requestConversation_range_witness :
    requestConversation 7 3 10 = some (7, 3, 10) ∧ requestConversation 7 10 3 = none :=
  ⟨(requestConversation_range 7 3 10 (by decide) (by decide) (by decide) (by decide)).2.1.mpr
      (by decide),
   (requestConversation_range 7 10 3 (by decide) (by decide) (by decide) (by decide)).1.mpr
      (by decide)⟩

/-- C16. Reply to an empty conversation. For every store and every thread id
whose getConversation is empty, an unknown thread included,
replyToConversation returns without issuing a send. -/
theorem replyToConversation_empty (s : Store) (conversationID : Int) (body : String)
    (h : getConversation s conversationID = []) :
    (replyToConversation s conversationID body).2 = some [] := by
  rw [replyToConversation_effects]
  unfold getConversation mapValues at h
  rw [List.map_eq_nil_iff] at h
  rw [h]
  rfl

/-- C16 at a concrete input: a reply to thread 7 on the empty store. -/
theorem replyToConversation_empty_witness :
    getConversation Store.empty 7 = []
    ∧ (replyToConversation Store.empty 7 "reply").2 = some [] :=
  ⟨rfl, replyToConversation_empty Store.empty 7 "reply" rfl⟩

/-- C17. The empty address list is not turned away by sendWithoutConversation:
the call goes straight to the indexing of element 0, which the list does not
have. A list with an element gives one send, to its first address. -/
theorem sendWithoutConversation_empty_list :
    sendWithoutConversation [] "text" = none
    ∧ sendWithoutConversation ["+100", "+200"] "text" =
        some [Effect.sendSmsWithoutSub "+100" "text"] := by
  decide

/-- C19. Two messages of thread 7 with the uIDs 1 and 2 and the same
timestamp are delivered to the empty store. Both uIDs are known afterwards,
but the conversation holds the second message only, the first having been
replaced in the QMap: the known-id set is not the set of the uIDs of the
conversation. Delivered once more, the first message is skipped as known. -/
theorem known_ids_not_in_conversation :
    knownIds (addMessages false Store.empty [mkMessage 1 7 10, mkMessage 2 7 10]).1 7 = [1, 2]
    ∧ (getConversation (addMessages false Store.empty [mkMessage 1 7 10, mkMessage 2 7 10]).1
        7).map (fun m => m.uID) = [2]
    ∧ getConversation
        (addMessages false (addMessages false Store.empty [mkMessage 1 7 10, mkMessage 2 7 10]).1
          [mkMessage 1 7 10]).1 7 = [mkMessage 2 7 10] := by
  decide

/-- C20. replyToConversation changes the store: after a reply to the unknown
thread 7 on the empty store, m_conversations has the key 7, with an empty
conversation, and a first message delivered for thread 7 afterwards is
handled as one of an existing conversation (no conversationCreated). -/
theorem replyToConversation_adds_key :
    Store.empty.m_conversations = []
    ∧ (replyToConversation Store.empty 7 "reply").1.m_conversations = [(7, [])]
    ∧ hashContains Store.empty.m_conversations 7 = false
    ∧ hashContains (replyToConversation Store.empty 7 "reply").1.m_conversations 7 = true
    ∧ Effect.conversationCreated (mkMessage 1 7 10) ∈
        (addMessages false Store.empty [mkMessage 1 7 10]).2
    ∧ Effect.conversationCreated (mkMessage 1 7 10) ∉
        (addMessages false (replyToConversation Store.empty 7 "reply").1 [mkMessage 1 7 10]).2 := by
  decide

/-! ## The destructor, the registry and the lock -/

/-- C12. Shutdown releases waiters. For every store, whatever its in-flight
set, after the destructor the in-flight set is empty and wakeAll has been
issued, no message has been delivered (the conversations and known uIDs are
as before), and for every thread id the wait condition of updateConversation
is false, so a caller woken in the wait loop leaves it and unlocks. -/
theorem destruct_releases_waiters (p : Process) (m_device : String) (s : Store)
    (conversationID : Int) (later : List Store) :
    (destruct p m_device s).2.1.conversationsWaitingForMessages = []
    ∧ (destruct p m_device s).2.2 = [Effect.wakeAll]
    ∧ (destruct p m_device s).2.1.m_conversations = s.m_conversations
    ∧ (destruct p m_device s).2.1.m_known_messages = s.m_known_messages
    ∧ waitCondition (destruct p m_device s).2.1 conversationID = false
    ∧ updateConversationLoop conversationID ((destruct p m_device s).2.1 :: later) =
        [UpdateAction.unlock] := by
  have hw : waitCondition (destruct p m_device s).2.1 conversationID = false := by
    simp [waitCondition, destruct, destructWake]
  refine ⟨rfl, rfl, rfl, rfl, hw, ?_⟩
  unfold updateConversationLoop
  rw [hw]
  rfl

/-- C14. A second interface for the same device takes the place of the first
in liveConversationInterfaces and the first is handed to deleteLater; but
when the destructor of the first runs, it erases the entry found under the
device id, which is the entry of the second interface: the device has no
entry afterwards. -/
theorem destruct_erases_new_interface :
    liveFind (construct (construct ⟨[], []⟩ "device" 1).1 "device" 2).1.liveConversationInterfaces
        "device" = some 2
    ∧ (construct (construct ⟨[], []⟩ "device" 1).1 "device" 2).1.liveConversationInterfaces =
        [("device", 2)]
    ∧ (construct (construct ⟨[], []⟩ "device" 1).1 "device" 2).1.deleteLater = [1]
    ∧ liveFind
        (destruct (construct (construct ⟨[], []⟩ "device" 1).1 "device" 2).1 "device"
          (construct ⟨[], []⟩ "device" 1).2).1.liveConversationInterfaces "device" = none := by
  decide

theorem updateConversationLoop_actions (conversationID : Int) (found : List Store) :
    ∀ a ∈ updateConversationLoop conversationID found,
      a = UpdateAction.wait ∨ a = UpdateAction.unlock := by
  induction found with
  | nil => intro a ha; simp [updateConversationLoop] at ha
  | cons s rest ih =>
    intro a ha
    unfold updateConversationLoop at ha
    split at ha
    · rcases List.mem_cons.mp ha with h | h
      · exact Or.inl h
      · exact ih a h
    · exact Or.inr (List.mem_singleton.mp ha)

theorem updateConversation_of_not_waiting (s : Store) (conversationID : Int)
    (found : List Store) (h : conversationID ∉ s.conversationsWaitingForMessages) :
    updateConversation s conversationID found =
      UpdateAction.lock :: UpdateAction.requestConversation conversationID ::
        UpdateAction.wait :: updateConversationLoop conversationID found := by
  unfold updateConversation updateConversationEntry
  rw [if_neg h]
  have hin : conversationID ∈ qsetInsert conversationID s.conversationsWaitingForMessages :=
    (mem_qsetInsert _ _ _).mpr (Or.inl rfl)
  simp [hin]

/-- C18, as stated, fails: on the empty store the call updateConversation(7),
woken once after thread 7 has left the in-flight set, locks, sends the remote
request, waits and unlocks. The only action before the remote request is the
lock: the request is sent with waitingForMessagesLock held. -/
theorem dispatch_under_lock_counterexample :
    updateConversation Store.empty 7 [Store.empty] =
        [UpdateAction.lock, UpdateAction.requestConversation 7, UpdateAction.wait,
         UpdateAction.unlock]
    ∧ lockHeld [UpdateAction.lock] = true := by
  decide

/-- C18, amended. In the steps of updateConversation for a thread id that is
not in-flight (acquire the lock, add the id to the in-flight set, send the
remote request, wait until the id is not in-flight, release the lock) the
remote request is sent while the caller holds waitingForMessagesLock: the
actions are the lock, the request, then the wait loop, and wherever the
request stands in them the lock is held after the actions before it. -/
theorem updateConversation_dispatch_under_lock (s : Store) (conversationID : Int)
    (found : List Store) (h : conversationID ∉ s.conversationsWaitingForMessages) :
    updateConversation s conversationID found =
        UpdateAction.lock :: UpdateAction.requestConversation conversationID ::
          UpdateAction.wait :: updateConversationLoop conversationID found
    ∧ ∀ before after,
        updateConversation s conversationID found =
          before ++ UpdateAction.requestConversation conversationID :: after →
        lockHeld before = true := by
  have hshape := updateConversation_of_not_waiting s conversationID found h
  refine ⟨hshape, ?_⟩
  intro before after heq
  rw [hshape] at heq
  cases before with
  | nil => simp at heq
  | cons x rest =>
    simp only [List.cons_append, List.cons.injEq] at heq
    obtain ⟨hx, hrest⟩ := heq
    subst hx
    cases rest with
    | nil => rfl
    | cons y rest2 =>
      exfalso
      simp only [List.cons_append, List.cons.injEq] at hrest
      obtain ⟨_, htail⟩ := hrest
      have hmem : UpdateAction.requestConversation conversationID ∈
          UpdateAction.wait :: updateConversationLoop conversationID found := by
        rw [htail]; simp
      rcases List.mem_cons.mp hmem with h1 | h1
      · cases h1
      · rcases updateConversationLoop_actions conversationID found _ h1 with h2 | h2 <;> cases h2

/-- C18 amended, at a concrete input: updateConversation(7) on the empty
store. -/
theorem updateConversation_dispatch_under_lock_witness :
    (7 : Int) ∉ Store.empty.conversationsWaitingForMessages
    ∧ lockHeld [UpdateAction.lock] = true :=
  ⟨by decide,
   (updateConversation_dispatch_under_lock Store.empty 7 [Store.empty] (by decide)).2
      [UpdateAction.lock] [UpdateAction.wait, UpdateAction.unlock] (by decide)⟩

/-! ## One remote request per conversation -/

theorem pendingDispatches_eq (conversationID : Int) (events : List FetchEvent) :
    pendingDispatches conversationID events =
      events.foldl (pendingNext conversationID) 0 := rfl

theorem pendingDispatches_append (conversationID : Int) (t ev : List FetchEvent) :
    pendingDispatches conversationID (t ++ ev) =
      ev.foldl (pendingNext conversationID) (pendingDispatches conversationID t) := by
  rw [pendingDispatches_eq, pendingDispatches_eq, List.foldl_append]

theorem foldl_pendingNext_lefts (conversationID : Int) (ids : List Int) (n : Nat) :
    (ids.map FetchEvent.left).foldl (pendingNext conversationID) n =
      if conversationID ∈ ids then 0 else n := by
  induction ids generalizing n with
  | nil => simp
  | cons i rest ih =>
    rw [List.map_cons, List.foldl_cons, ih]
    by_cases h1 : i = conversationID
    · subst h1
      simp [pendingNext]
    · have h2 : ¬ conversationID = i := fun e => h1 e.symm
      simp [pendingNext, h1, h2]

theorem leftBetween_take (before after : Store) (j : Nat) :
    ∃ ids : List Int, (leftBetween before after).take j = ids.map FetchEvent.left
      ∧ ∀ i ∈ ids, i ∈ before.conversationsWaitingForMessages
          ∧ i ∉ after.conversationsWaitingForMessages := by
  unfold leftBetween
  refine ⟨(before.conversationsWaitingForMessages.filter
    (fun t => decide (t ∉ after.conversationsWaitingForMessages))).take j, ?_, ?_⟩
  · rw [List.map_take]
  · intro i hi
    have := List.mem_filter.mp (List.mem_of_mem_take hi)
    exact ⟨this.1, by simpa using this.2⟩

theorem pending_leftBetween (conversationID : Int) (before after : Store) (n : Nat) :
    (leftBetween before after).foldl (pendingNext conversationID) n =
      if conversationID ∈ before.conversationsWaitingForMessages
          ∧ conversationID ∉ after.conversationsWaitingForMessages then 0 else n := by
  unfold leftBetween
  rw [foldl_pendingNext_lefts]
  simp only [List.mem_filter, decide_eq_true_eq]

theorem leftBetween_of_subset (before after : Store)
    (h : ∀ t ∈ before.conversationsWaitingForMessages,
      t ∈ after.conversationsWaitingForMessages) : leftBetween before after = [] := by
  unfold leftBetween
  rw [List.map_eq_nil_iff, List.filter_eq_nil_iff]
  intro t ht
  simpa using h t ht

/-- What a sequence of steps keeps true of the store and the events so far,
for one thread id: at every moment at most one request is pending, and a
pending request means that the id is in-flight. -/
theorem fetchStep_invariant (multi : Bool) (conversationID : Int) (s : Store)
    (t : List FetchEvent) (step : FetchStep)
    (h1 : ∀ k, pendingDispatches conversationID (t.take k) ≤ 1)
    (h2 : 1 ≤ pendingDispatches conversationID t →
      conversationID ∈ s.conversationsWaitingForMessages) :
    (∀ k, pendingDispatches conversationID ((t ++ (fetchStep multi s step).2).take k) ≤ 1)
    ∧ (1 ≤ pendingDispatches conversationID (t ++ (fetchStep multi s step).2) →
        conversationID ∈ (fetchStep multi s step).1.conversationsWaitingForMessages) := by
  have hfull : pendingDispatches conversationID t ≤ 1 := by
    have := h1 t.length
    rwa [List.take_length] at this
  have hpre : ∀ (ev : List FetchEvent),
      (∀ j, (ev.take j).foldl (pendingNext conversationID)
        (pendingDispatches conversationID t) ≤ 1) →
      ∀ k, pendingDispatches conversationID ((t ++ ev).take k) ≤ 1 := by
    intro ev hev k
    rw [List.take_append_eq_append_take]
    by_cases hk : k ≤ t.length
    · have : k - t.length = 0 := by omega
      rw [this, List.take_zero, List.append_nil]
      exact h1 k
    · rw [List.take_of_length_le (by omega), pendingDispatches_append]
      exact hev _
  have hlefts : ∀ (s1 : Store),
      (∀ k, pendingDispatches conversationID ((t ++ leftBetween s s1).take k) ≤ 1)
      ∧ (1 ≤ pendingDispatches conversationID (t ++ leftBetween s s1) →
          conversationID ∈ s1.conversationsWaitingForMessages) := by
    intro s1
    constructor
    · apply hpre
      intro j
      obtain ⟨ids, hids, _⟩ := leftBetween_take s s1 j
      rw [hids, foldl_pendingNext_lefts]
      split
      · omega
      · exact hfull
    · intro hp
      rw [pendingDispatches_append, pending_leftBetween] at hp
      by_cases hc : conversationID ∈ s.conversationsWaitingForMessages
          ∧ conversationID ∉ s1.conversationsWaitingForMessages
      · rw [if_pos hc] at hp; omega
      · rw [if_neg hc] at hp
        have hin := h2 hp
        by_contra hnot
        exact hc ⟨hin, hnot⟩
  cases step with
  | addMessages messages => exact hlefts _
  | destructor => exact hlefts _
  | updateConversation i =>
    by_cases hi : i ∈ s.conversationsWaitingForMessages
    · have hstep : fetchStep multi s (FetchStep.updateConversation i) = (s, leftBetween s s) := by
        simp [fetchStep, updateConversationEntry, hi, dispatchedBy]
      rw [hstep]
      exact hlefts s
    · have hsub : ∀ x ∈ s.conversationsWaitingForMessages,
          x ∈ qsetInsert i s.conversationsWaitingForMessages :=
        fun x hx => (mem_qsetInsert _ _ _).mpr (Or.inr hx)
      have hstep : fetchStep multi s (FetchStep.updateConversation i) =
          ({ s with conversationsWaitingForMessages :=
               qsetInsert i s.conversationsWaitingForMessages },
            [FetchEvent.dispatched i]) := by
        have hl := leftBetween_of_subset s
          { s with conversationsWaitingForMessages :=
              qsetInsert i s.conversationsWaitingForMessages } hsub
        simp [fetchStep, updateConversationEntry, hi, dispatchedBy, hl]
      rw [hstep]
      by_cases hid : i = conversationID
      · subst hid
        have hzero : pendingDispatches i t = 0 := by
          by_contra hne
          exact hi (h2 (by omega))
        constructor
        · apply hpre
          intro j
          cases j with
          | zero => simpa using hfull
          | succ j =>
            simp [pendingNext, hzero]
        · intro _
          exact (mem_qsetInsert _ _ _).mpr (Or.inl rfl)
      · have hne : ¬ FetchEvent.dispatched i = FetchEvent.dispatched conversationID := by
          intro e; injection e with e; exact hid e
        constructor
        · apply hpre
          intro j
          cases j with
          | zero => simpa using hfull
          | succ j =>
            simp [pendingNext, hne]
            exact hfull
        · intro hp
          rw [pendingDispatches_append] at hp
          simp [pendingNext, hne] at hp
          exact hsub _ (h2 hp)

theorem runFetch_invariant (multi : Bool) (conversationID : Int) (steps : List FetchStep)
    (acc : Store × List FetchEvent)
    (h1 : ∀ k, pendingDispatches conversationID (acc.2.take k) ≤ 1)
    (h2 : 1 ≤ pendingDispatches conversationID acc.2 →
      conversationID ∈ acc.1.conversationsWaitingForMessages) :
    ∀ k, pendingDispatches conversationID
      ((steps.foldl
        (fun acc step =>
          ((fetchStep multi acc.1 step).1, acc.2 ++ (fetchStep multi acc.1 step).2))
        acc).2.take k) ≤ 1 := by
  induction steps generalizing acc with
  | nil => exact h1
  | cons step rest ih =>
    rw [List.foldl_cons]
    have := fetchStep_invariant multi conversationID acc.1 acc.2 step h1 h2
    exact ih _ this.1 this.2

/-- C11. At most one outstanding remote fetch per conversation. (1) The entry
of updateConversation for a thread id that is in-flight sends no remote
request, leaves the store as it is and returns without waiting. (2) For a
thread id that is not in-flight it adds exactly that id to the in-flight set
and sends exactly one remote request, for that id. (3) In the events of any
sequence of updateConversation, addMessages and destructor steps, at every
moment at most one remote request has been sent for a thread id since the id
last left the in-flight set. -/
theorem updateConversation_single_fetch (multi : Bool) (s : Store) (conversationID : Int)
    (steps : List FetchStep) (k : Nat) :
    (conversationID ∈ s.conversationsWaitingForMessages →
        updateConversationEntry s conversationID =
          (s, [UpdateAction.lock, UpdateAction.unlock], false)
        ∧ dispatchedBy (updateConversationEntry s conversationID).2.1 = [])
    ∧ (conversationID ∉ s.conversationsWaitingForMessages →
        (∀ t, t ∈ (updateConversationEntry s conversationID).1.conversationsWaitingForMessages ↔
          (t = conversationID ∨ t ∈ s.conversationsWaitingForMessages))
        ∧ (updateConversationEntry s conversationID).2.1 =
            [UpdateAction.lock, UpdateAction.requestConversation conversationID]
        ∧ dispatchedBy (updateConversationEntry s conversationID).2.1 =
            [FetchEvent.dispatched conversationID])
    ∧ pendingDispatches conversationID ((runFetch multi s steps).2.take k) ≤ 1 := by
  refine ⟨?_, ?_, ?_⟩
  · intro h
    simp [updateConversationEntry, h, dispatchedBy]
  · intro h
    refine ⟨?_, ?_, ?_⟩
    · intro t
      simp only [updateConversationEntry, if_neg h]
      exact mem_qsetInsert _ _ _
    · simp [updateConversationEntry, h]
    · simp [updateConversationEntry, h, dispatchedBy]
  · exact runFetch_invariant multi conversationID steps (s, []) (by simp [pendingDispatches])
      (by simp [pendingDispatches]) k

/-- C11 at concrete inputs: on the empty store a first updateConversation(7)
sends the request, a second one while 7 is in-flight sends nothing, and after
a delivery for thread 7 a third one sends the next request. -/
theorem updateConversation_single_fetch_witness :
    ((7 : Int) ∈ (updateConversationEntry Store.empty 7).1.conversationsWaitingForMessages
      ∧ updateConversationEntry (updateConversationEntry Store.empty 7).1 7 =
          ((updateConversationEntry Store.empty 7).1,
            [UpdateAction.lock, UpdateAction.unlock], false))
    ∧ ((7 : Int) ∉ Store.empty.conversationsWaitingForMessages
      ∧ (updateConversationEntry Store.empty 7).2.1 =
          [UpdateAction.lock, UpdateAction.requestConversation 7])
    ∧ (runFetch false Store.empty
        [FetchStep.updateConversation 7, FetchStep.updateConversation 7,
         FetchStep.addMessages [mkMessage 1 7 10], FetchStep.updateConversation 7]).2 =
        [FetchEvent.dispatched 7, FetchEvent.left 7, FetchEvent.dispatched 7]
    ∧ pendingDispatches 7
        ((runFetch false Store.empty
          [FetchStep.updateConversation 7, FetchStep.updateConversation 7,
           FetchStep.addMessages [mkMessage 1 7 10], FetchStep.updateConversation 7]).2.take 3)
        ≤ 1 :=
  ⟨⟨by decide,
    ((updateConversation_single_fetch false (updateConversationEntry Store.empty 7).1 7 [] 0).1
      (by decide)).1⟩,
   ⟨by decide,
    ((updateConversation_single_fetch false Store.empty 7 [] 0).2.1 (by decide)).2.1⟩,
   by decide,
   (updateConversation_single_fetch false Store.empty 7
      [FetchStep.updateConversation 7, FetchStep.updateConversation 7,
       FetchStep.addMessages [mkMessage 1 7 10], FetchStep.updateConversation 7] 3).2.2⟩

/-! ## What holds beside the defects -/

/-- In every store the calls produce from the empty store, the uIDs of a
conversation are pairwise distinct and all known for the thread key. -/
theorem runCalls_uids_known (multi : Bool) (calls : List Call) (key : Int) :
    ((getConversation (runCalls multi Store.empty calls) key).map (fun m => m.uID)).Nodup
    ∧ ∀ m ∈ getConversation (runCalls multi Store.empty calls) key,
        m.uID ∈ knownIds (runCalls multi Store.empty calls) key := by
  have hT := runCalls_empty_storeOK multi calls key
  constructor
  · have : (getConversation (runCalls multi Store.empty calls) key).map (fun m => m.uID) =
        (hashValue (runCalls multi Store.empty calls).m_conversations key).map
          (fun e => e.2.uID) := by
      simp [getConversation, mapValues]
    rw [this]
    exact hT.uid_nodup
  · intro m hm
    obtain ⟨e, he, hee⟩ := List.mem_map.mp hm
    exact hee ▸ hT.uid_known e he

/-- With an address in the list, sendWithoutConversation issues one send, to
the first address and with the body. -/
theorem sendWithoutConversation_cons (address : String) (rest : List String) (body : String) :
    sendWithoutConversation (address :: rest) body =
      some [Effect.sendSmsWithoutSub address body] := rfl

/-- A reply leaves the known uIDs and the in-flight set as they are and adds
at most the key of the thread to m_conversations, with no message. -/
theorem replyToConversation_frame (s : Store) (conversationID : Int) (body : String)
    (key : Int) :
    (replyToConversation s conversationID body).1.m_known_messages = s.m_known_messages
    ∧ (replyToConversation s conversationID body).1.conversationsWaitingForMessages =
        s.conversationsWaitingForMessages
    ∧ getConversation (replyToConversation s conversationID body).1 key =
        getConversation s key := by
  rw [replyToConversation_store]
  refine ⟨rfl, rfl, ?_⟩
  simp only [getConversation, hashValue_hashIndex]

end ConversationsDbusInterface
